import Mathlib

/-!
# Verification of the SyncName core (`src/syncName.ts`)

A shallow embedding of the name-synchronisation core: the `ParsedFile` path
descriptor (built on Node's posix `path.parse` / `path.format` / `path.join` /
`path.relative`), the directory matcher `syncDir`, the tree walk `syncNames`,
the second-pass `resolveCollisions`, and the shipped predicate `areSyncable`.

JavaScript strings are modelled as `List Char` (the paths in play are ASCII,
where UTF-16 and Lean strings agree).  Filesystem side effects are modelled as
an explicit trace of `FsAction` values: `syncDir` receives the directory
listings (the result of `readdirSync` after the `isFile` / `.DS_Store` filter)
as inputs and returns the actions it would perform, which is faithful for a
single run because the code lists each directory before mutating it and never
revisits a directory.
-/

namespace SyncName

/-- JavaScript string, modelled as a list of characters. -/
abbrev JStr := List Char

/-- `class ParsedFile implements ParsedPath` — the four stored fields of the
path descriptor (`root`, `dir`, `name`, `ext`). -/
structure ParsedFile where
  root : JStr
  dir : JStr
  name : JStr
  ext : JStr
deriving DecidableEq, Repr

/-- `get base()` — `this.name + this.ext`. -/
def ParsedFile.base (f : ParsedFile) : JStr := f.name ++ f.ext

/-- The `name` / `ext` split Node's posix `path.parse` applies to a basename:
the extension starts at the last dot, unless that dot is the first character
of the basename, or the basename is exactly `".."`. -/
def nameExtSplit (b : JStr) : JStr × JStr :=
  match b.reverse.findIdx? (· = '.') with
  | none => (b, [])
  | some i =>
    let d := b.length - 1 - i
    if d = 0 then (b, [])
    else if d = b.length - 1 && d = 1 && b.head? = some '.' then (b, [])
    else (b.take d, b.drop d)

/-- Node's posix `path.parse`, the `ParsedFile` constructor: split off the
root (`/` for absolute paths), strip trailing separators, take the last
path component as the basename and everything before its separator as `dir`. -/
def parsePath (p : JStr) : ParsedFile :=
  if p = [] then ⟨[], [], [], []⟩ else
  let isAbs := p.head? = some '/'
  let root : JStr := if isAbs then ['/'] else []
  let start := if isAbs then 1 else 0
  let rev := (p.drop start).reverse
  let rev₁ := rev.dropWhile (· = '/')
  if rev₁ = [] then ⟨root, root, [], []⟩
  else
    let comp := rev₁.takeWhile (· ≠ '/')
    let rest := rev₁.dropWhile (· ≠ '/')
    let bse := comp.reverse
    let dir := if rest = [] then root else p.take (start + rest.length - 1)
    let ne := nameExtSplit bse
    ⟨root, dir, ne.1, ne.2⟩

/-- Node's posix `path.format` as invoked through `get fullPath()`
(`path.format(this)`): the `base` getter always supplies `name + ext`. -/
def pathFormat (f : ParsedFile) : JStr :=
  let dir := if f.dir = [] then f.root else f.dir
  let base := f.base
  if dir = [] then base
  else if dir = f.root then dir ++ base
  else dir ++ '/' :: base

/-- `get fullPath()` — `path.format(this)`. -/
def ParsedFile.fullPath (f : ParsedFile) : JStr := pathFormat f

/-- `equal(f)` — `this.fullPath === f.fullPath`. -/
def ParsedFile.equal (f g : ParsedFile) : Bool := f.fullPath = g.fullPath

/-- Does the string contain two consecutive separators (an empty segment)? -/
def hasDoubleSlash : JStr → Bool
  | '/' :: '/' :: _ => true
  | _ :: rest => hasDoubleSlash rest
  | [] => false

/-- A path with no empty segments and no trailing separator (the slash-
normalised paths); `""` and `"/"` are also well formed. -/
def wellFormedPath (p : JStr) : Bool :=
  p = [] || p = ['/'] || (p.getLast? ≠ some '/' && !hasDoubleSlash p)

/-- The segments of a path string, separated by `'/'` (empty input has no
segments). -/
def splitSegs (p : JStr) : List JStr :=
  if p = [] then [] else p.splitOn '/'

/-- One step of the segment normalisation performed by Node's
`normalizeString`: skip empty and `"."` segments, let `".."` pop the last
plain segment (or accumulate, for relative paths). -/
def normStep (allowAboveRoot : Bool) (stack : List JStr) (seg : JStr) : List JStr :=
  if seg = [] || seg = ['.'] then stack
  else if seg = ['.', '.'] then
    if stack ≠ [] && stack.getLast? ≠ some ['.', '.'] then stack.dropLast
    else if allowAboveRoot then stack ++ [seg]
    else stack
  else stack ++ [seg]

/-- Node's `normalizeString`, segment-wise: resolve `"."` and `".."` path
elements. -/
def normSegs (allowAboveRoot : Bool) (segs : List JStr) : List JStr :=
  segs.foldl (normStep allowAboveRoot) []

/-- Rejoin segments with `'/'`. -/
def joinSegs (segs : List JStr) : JStr := (segs.intersperse ['/']).flatten

/-- Node's posix `path.normalize`. -/
def pathNormalize (p : JStr) : JStr :=
  if p = [] then ['.'] else
  let isAbs := p.head? = some '/'
  let trailing := p.getLast? = some '/'
  let res := joinSegs (normSegs (!isAbs) (splitSegs p))
  if res = [] then
    if isAbs then ['/'] else if trailing then ['.', '/'] else ['.']
  else
    let res' := if trailing then res ++ ['/'] else res
    if isAbs then '/' :: res' else res'

/-- Node's posix `path.join`: drop empty arguments, interleave `'/'`, then
normalize. -/
def pathJoin (parts : List JStr) : JStr :=
  let nonEmpty := parts.filter (· ≠ [])
  if nonEmpty = [] then ['.']
  else pathNormalize (joinSegs nonEmpty)

/-- Node's posix `path.resolve` on a single argument, with `process.cwd()`
made explicit: prepend the working directory until the path is absolute,
then normalise (`".."` segments may climb above the root only while the
accumulated path is relative). -/
def pathResolve (cwd p : JStr) : JStr :=
  let isAbs := p.head? = some '/'
  let combined := if isAbs then p else cwd ++ '/' :: p
  let resolvedAbsolute := combined.head? = some '/'
  let res := joinSegs (normSegs (!resolvedAbsolute) (splitSegs combined))
  if resolvedAbsolute then '/' :: res
  else if res = [] then ['.'] else res

/-- Drop the common leading segments of two segment lists. -/
def dropCommonSegs : List JStr → List JStr → List JStr × List JStr
  | a :: as, b :: bs =>
    if a = b then dropCommonSegs as bs else (a :: as, b :: bs)
  | as, bs => (as, bs)

/-- Node's posix `path.relative` (with `process.cwd()` explicit): resolve
both paths, drop their common prefix, climb with `".."` for what remains of
`fromP` and descend into what remains of `toP`. -/
def pathRelative (cwd fromP toP : JStr) : JStr :=
  if fromP = toP then [] else
  let f := pathResolve cwd fromP
  let t := pathResolve cwd toP
  if f = t then [] else
  let pair := dropCommonSegs (splitSegs (f.drop 1)) (splitSegs (t.drop 1))
  joinSegs (List.replicate pair.1.length ['.', '.'] ++ pair.2)

/-- `withName(n)` — reparse `this.fullPath`, then overwrite `name`. -/
def ParsedFile.withName (f : ParsedFile) (n : JStr) : ParsedFile :=
  let nf := parsePath f.fullPath
  { nf with name := n }

/-- `withParentDirectory(d)` — reparse `this.fullPath`, then set
`dir = path.join(d, this.dir)` (note: `this.dir`, the original field). -/
def ParsedFile.withParentDirectory (f : ParsedFile) (d : JStr) : ParsedFile :=
  let nf := parsePath f.fullPath
  { nf with dir := pathJoin [d, f.dir] }

/-- `relativeTo(d)` — reparse `this.fullPath`, then set
`dir = path.relative(d, this.dir)` (note: `this.dir`, the original field). -/
def ParsedFile.relativeTo (cwd : JStr) (f : ParsedFile) (d : JStr) : ParsedFile :=
  let nf := parsePath f.fullPath
  { nf with dir := pathRelative cwd d f.dir }

/-- ASCII letter or digit — the characters the regex `[^a-zA-Z0-9]+` keeps. -/
def isAlnumAscii (c : Char) : Bool :=
  ('a' ≤ c && c ≤ 'z') || ('A' ≤ c && c ≤ 'Z') || ('0' ≤ c && c ≤ '9')

/-- `str.replace(/[^a-zA-Z0-9]+/g, '')`: each maximal run of characters that
are not ASCII letters or digits is replaced by the empty string. -/
def replaceRuns : JStr → JStr
  | [] => []
  | c :: cs =>
    if isAlnumAscii c then c :: replaceRuns cs
    else replaceRuns (cs.dropWhile (fun x => !isAlnumAscii x))
termination_by l => l.length
decreasing_by
  all_goals simp only [List.length_cons]
  · exact Nat.lt_succ_self _
  · exact Nat.lt_succ_of_le (List.Sublist.length_le (List.dropWhile_sublist _))

/-- JavaScript `String.prototype.startsWith`. -/
def jsStartsWith : JStr → JStr → Bool
  | _, [] => true
  | [], _ :: _ => false
  | c :: s, d :: ds => c = d && jsStartsWith s ds

/-- The shipped sync predicate `areSyncable`: clean both stems with the
`syncRegex` replacement, then test
`sourceNameClean.startsWith(targetNameClean)`. -/
def areSyncable (sourceFile targetFile : ParsedFile) : Bool :=
  jsStartsWith (replaceRuns sourceFile.name) (replaceRuns targetFile.name)

/-- A filesystem side effect performed by the core (`fs.renameSync` /
`fs.copyFileSync`), recorded as full paths. -/
inductive FsAction where
  | rename (fromPath toPath : JStr)
  | copy (fromPath toPath : JStr)
deriving DecidableEq, Repr

/-- `renameFile(file, newName)`: a no-op when the name is unchanged,
otherwise `fs.renameSync(file.fullPath, file.withName(newName).fullPath)`. -/
def renameFileActs (file : ParsedFile) (newName : JStr) : List FsAction :=
  if file.name ≠ newName then
    [FsAction.rename file.fullPath ((file.withName newName).fullPath)]
  else []

/-- `copyFile(sourceFile, targetFile)`:
`fs.copyFileSync(sourceFile.fullPath, targetFile.fullPath)`. -/
def copyFileActs (sourceFile targetFile : ParsedFile) : List FsAction :=
  [FsAction.copy sourceFile.fullPath targetFile.fullPath]

/-- `interface SyncResults`.  The `collisions` map (a JS `Map` keyed by
object identity, where every key is a freshly constructed `ParsedFile`) is
modelled as an insertion-ordered association list. -/
structure SyncResults where
  resolved : List ParsedFile
  collisions : List (ParsedFile × List ParsedFile)
deriving DecidableEq, Repr

/-- The candidate computation of `syncDir` for one source file: target files
satisfying the predicate, reparented under `targetDir`, minus those already
present in the accumulated `resolved` list. -/
def syncCandidates (targetDir : JStr) (pred : ParsedFile → ParsedFile → Bool)
    (targetFiles : List ParsedFile) (resolved : List ParsedFile)
    (sourceFile : ParsedFile) : List ParsedFile :=
  ((targetFiles.filter (fun c => pred sourceFile c)).map
      (fun c => c.withParentDirectory targetDir)).filter
    (fun c => !resolved.any (fun f => f.equal c))

/-- The body of the `sourceFiles.forEach` loop in `syncDir`: exactly one
candidate is claimed and renamed, none triggers a copy, two or more are
recorded in `collisions`. -/
def syncDirStep (sourceDir targetDir : JStr)
    (pred : ParsedFile → ParsedFile → Bool) (targetFiles : List ParsedFile)
    (st : SyncResults × List FsAction) (sourceFile : ParsedFile) :
    SyncResults × List FsAction :=
  let targetCandidates :=
    syncCandidates targetDir pred targetFiles st.1.resolved sourceFile
  match targetCandidates with
  | [c] =>
    (⟨st.1.resolved ++ [c], st.1.collisions⟩,
      st.2 ++ renameFileActs c sourceFile.name)
  | [] =>
    (st.1,
      st.2 ++ copyFileActs (sourceFile.withParentDirectory sourceDir)
        (sourceFile.withParentDirectory targetDir))
  | c₁ :: c₂ :: cs =>
    (⟨st.1.resolved,
        st.1.collisions ++
          [(sourceFile.withParentDirectory sourceDir, c₁ :: c₂ :: cs)]⟩,
      st.2)

/-- `syncDir`: the directory matcher for one mirrored directory pair.  The
directory listings (after the `isFile` and `.DS_Store` filters) are inputs;
the filesystem effects are returned as a trace. -/
def syncDir (sourceDir targetDir : JStr)
    (pred : ParsedFile → ParsedFile → Bool)
    (sourceNames targetNames : List JStr) (init : SyncResults) :
    SyncResults × List FsAction :=
  let sourceFiles := sourceNames.map parsePath
  let targetFiles := targetNames.map parsePath
  sourceFiles.foldl (syncDirStep sourceDir targetDir pred targetFiles)
    (init, [])

/-- One mirrored directory pair visited by the tree walk, together with its
two listings. -/
structure DirPair where
  sourceDir : JStr
  targetDir : JStr
  sourceNames : List JStr
  targetNames : List JStr
deriving Repr

/-- `syncNames`: the walk runs `syncDir` on the root pair and then on every
subdirectory pair in the (deterministic) `klawSync` order, threading the
accumulated `SyncResults` forward.  The pair list is the walk's input. -/
def syncNames (pred : ParsedFile → ParsedFile → Bool)
    (pairs : List DirPair) (init : SyncResults) :
    SyncResults × List FsAction :=
  pairs.foldl
    (fun st pr =>
      let r := syncDir pr.sourceDir pr.targetDir pred
        pr.sourceNames pr.targetNames st.1
      (r.1, st.2 ++ r.2))
    (init, [])

/-- The descending-stem-length ordering `byNameLenDesc` on collision keys,
as a relation (`a` may come before `b`). -/
def keyLenGe (a b : ParsedFile × List ParsedFile) : Prop :=
  b.1.name.length ≤ a.1.name.length

instance : DecidableRel keyLenGe := fun _ _ => Nat.decLe _ _

instance : IsTotal (ParsedFile × List ParsedFile) keyLenGe :=
  ⟨fun a b => Nat.le_total b.1.name.length a.1.name.length⟩

instance : IsTrans (ParsedFile × List ParsedFile) keyLenGe :=
  ⟨fun _ _ _ h₁ h₂ => Nat.le_trans h₂ h₁⟩

/-- `byNameLenDesc` on candidates. -/
def candLenGe (a b : ParsedFile) : Prop := b.name.length ≤ a.name.length

instance : DecidableRel candLenGe := fun _ _ => Nat.decLe _ _

instance : IsTotal ParsedFile candLenGe :=
  ⟨fun a b => Nat.le_total b.name.length a.name.length⟩

instance : IsTrans ParsedFile candLenGe :=
  ⟨fun _ _ _ h₁ h₂ => Nat.le_trans h₂ h₁⟩

/-- `[...collisions.keys()].sort(byNameLenDesc)`: JavaScript's sort is
stable, and keys are unique objects looked up by identity, so sorting the
keys and looking each one up is sorting the entries.  A stable sort with a
total transitive comparator has exactly one possible output, here given by
insertion sort. -/
def sortCollisions (collisions : List (ParsedFile × List ParsedFile)) :
    List (ParsedFile × List ParsedFile) :=
  collisions.insertionSort keyLenGe

/-- The candidate pick of `resolveCollisions` for one collision entry:
filter out candidates already claimed in `toRename` (comparing by path),
sort the rest by descending stem length (stable), take the first. -/
def pickCandidate (toRename : List (ParsedFile × JStr))
    (cands : List ParsedFile) : Option ParsedFile :=
  ((cands.filter
      (fun c => !toRename.any (fun e => e.1.equal c))).insertionSort
    candLenGe).head?

/-- The body of the key loop in `resolveCollisions`: a successful pick is
added to `toRename` with the source stem as value; otherwise the source file
is scheduled for a copy into the mirrored target subdirectory. -/
def resolveStep (cwd sourceRoot targetRoot : JStr)
    (st : List (ParsedFile × JStr) × List (ParsedFile × ParsedFile))
    (entry : ParsedFile × List ParsedFile) :
    List (ParsedFile × JStr) × List (ParsedFile × ParsedFile) :=
  match pickCandidate st.1 entry.2 with
  | some fileToRename => (st.1 ++ [(fileToRename, entry.1.name)], st.2)
  | none =>
    (st.1,
      st.2 ++
        [(entry.1,
          (entry.1.relativeTo cwd sourceRoot).withParentDirectory
            targetRoot)])

/-- `resolveCollisions`: sort the keys by descending stem length, pick one
candidate per key (or fall back to a copy), then execute all renames
(to `sourceStem + ' ' + postfix`) followed by all copies (to the scheduled
destination with `' ' + postfix` appended to its name).  Returns the
`toRename` and `toCopy` schedules and the action trace. -/
def resolveCollisions (cwd sourceRoot targetRoot : JStr)
    (collisions : List (ParsedFile × List ParsedFile)) (pfx : JStr) :
    List (ParsedFile × JStr) × List (ParsedFile × ParsedFile) ×
      List FsAction :=
  let pfx' := ' ' :: pfx
  let sorted := sortCollisions collisions
  let sched := sorted.foldl (resolveStep cwd sourceRoot targetRoot) ([], [])
  let acts :=
    (sched.1.map (fun e => renameFileActs e.1 (e.2 ++ pfx'))).flatten ++
      (sched.2.map
        (fun e => copyFileActs e.1 (e.2.withName (e.2.name ++ pfx')))).flatten
  (sched.1, sched.2, acts)

end SyncName

/-! ## Basic lemmas about the predicate -/

namespace SyncName

theorem filter_dropWhile_not (p : Char → Bool) (l : JStr) :
    (l.dropWhile (fun x => !p x)).filter p = l.filter p := by
  induction l with
  | nil => rfl
  | cons x xs ih =>
    by_cases hx : p x
    · simp [List.dropWhile_cons, hx]
    · simp only [List.dropWhile_cons]
      simp only [Bool.not_eq_true'] at hx
      simp [hx, ih, List.filter_cons]

/-- The run-based regex replacement deletes exactly the non-alphanumeric
characters: `replaceRuns` is the filter by `isAlnumAscii`. -/
theorem replaceRuns_eq_filter (l : JStr) :
    replaceRuns l = l.filter isAlnumAscii := by
  induction l using replaceRuns.induct with
  | case1 => simp [replaceRuns]
  | case2 c cs h ih => simp [replaceRuns, h, ih, List.filter_cons]
  | case3 c cs h ih =>
    rw [replaceRuns, if_neg h, ih, filter_dropWhile_not]
    simp [List.filter_cons, h]

theorem jsStartsWith_iff (s p : JStr) :
    jsStartsWith s p = true ↔ ∃ r, s = p ++ r := by
  induction p generalizing s with
  | nil =>
    simp only [jsStartsWith, List.nil_append, true_iff]
    exact ⟨s, rfl⟩
  | cons d ds ih =>
    cases s with
    | nil => simp [jsStartsWith]
    | cons c cs =>
      simp only [jsStartsWith, Bool.and_eq_true, decide_eq_true_eq, ih,
        List.cons_append, List.cons.injEq]
      constructor
      · rintro ⟨hc, r, hr⟩; exact ⟨r, hc, hr⟩
      · rintro ⟨r, hc, hr⟩; exact ⟨hc, r, hr⟩

end SyncName

/-! ## Claim theorems -/

namespace SyncName

/-- C6: the shipped sync predicate returns true iff, after removing from both
stems every character that is not an ASCII letter or digit, the cleaned
source stem starts with the cleaned target stem; for source stem
`"Report_2024"`, target `"Report"` matches and target `"Report2024_final"`
does not. -/
theorem c6_areSyncable_normalized_directional_match :
    (∀ s t : ParsedFile,
      areSyncable s t = true ↔
        ∃ r, s.name.filter isAlnumAscii = t.name.filter isAlnumAscii ++ r) ∧
    areSyncable (parsePath "Report_2024.txt".data)
        (parsePath "Report.txt".data) = true ∧
    areSyncable (parsePath "Report_2024.txt".data)
        (parsePath "Report2024_final.txt".data) = false := by
  refine ⟨fun s t => ?_, ?_, ?_⟩
  · rw [areSyncable, replaceRuns_eq_filter, replaceRuns_eq_filter,
      jsStartsWith_iff]
  · rw [areSyncable, replaceRuns_eq_filter, replaceRuns_eq_filter]
    decide
  · rw [areSyncable, replaceRuns_eq_filter, replaceRuns_eq_filter]
    decide

/-- C10: a target file whose stem cleans to the empty string satisfies the
shipped predicate against every source file, and therefore survives the
predicate filter of the directory matcher for every source file. -/
theorem c10_empty_normalized_target_matches_all :
    (∀ s t : ParsedFile, replaceRuns t.name = [] → areSyncable s t = true) ∧
    (∀ (s : ParsedFile) (targetFiles : List ParsedFile) (t : ParsedFile),
      t ∈ targetFiles → replaceRuns t.name = [] →
      t ∈ targetFiles.filter (fun c => areSyncable s c)) := by
  have h₁ : ∀ s t : ParsedFile, replaceRuns t.name = [] →
      areSyncable s t = true := by
    intro s t ht
    rw [areSyncable, ht, jsStartsWith_iff]
    exact ⟨replaceRuns s.name, rfl⟩
  refine ⟨h₁, fun s targetFiles t hmem ht => ?_⟩
  rw [List.mem_filter]
  exact ⟨hmem, h₁ s t ht⟩

/-- Witness for C10 at a concrete input: the stem `"_-_"` cleans to the empty
string, so `"_-_.x"` matches source `"data.x"`. -/
theorem c10_witness :
    replaceRuns (parsePath "_-_.x".data).name = [] ∧
    areSyncable (parsePath "data.x".data) (parsePath "_-_.x".data) = true := by
  have hclean : replaceRuns (parsePath "_-_.x".data).name = [] := by
    rw [replaceRuns_eq_filter]; decide
  exact ⟨hclean, c10_empty_normalized_target_matches_all.1
    (parsePath "data.x".data) (parsePath "_-_.x".data) hclean⟩

end SyncName

namespace SyncName

/-- C2: for every source file processed by the directory matcher, the
candidate list is the target listing filtered by the predicate and stripped
of already-resolved files, and the three branch behaviours are: one
candidate → rename it to the source stem and append it to `resolved`; zero →
copy the source file into the target directory under its own stem; two or
more → record the full candidate list in `collisions` keyed by the source
file, with no filesystem action. -/
theorem c2_directory_matcher_cases
    (sourceDir targetDir : JStr) (pred : ParsedFile → ParsedFile → Bool)
    (targetFiles : List ParsedFile) (st : SyncResults × List FsAction)
    (sourceFile : ParsedFile) :
    (∀ c, c ∈ syncCandidates targetDir pred targetFiles st.1.resolved
        sourceFile ↔
      ∃ t ∈ targetFiles, pred sourceFile t = true ∧
        c = t.withParentDirectory targetDir ∧
        st.1.resolved.any (fun f => f.equal c) = false) ∧
    (∀ c, syncCandidates targetDir pred targetFiles st.1.resolved
        sourceFile = [c] →
      syncDirStep sourceDir targetDir pred targetFiles st sourceFile =
        (⟨st.1.resolved ++ [c], st.1.collisions⟩,
          st.2 ++ renameFileActs c sourceFile.name)) ∧
    (syncCandidates targetDir pred targetFiles st.1.resolved sourceFile =
        [] →
      syncDirStep sourceDir targetDir pred targetFiles st sourceFile =
        (st.1, st.2 ++
          copyFileActs (sourceFile.withParentDirectory sourceDir)
            (sourceFile.withParentDirectory targetDir))) ∧
    (2 ≤ (syncCandidates targetDir pred targetFiles st.1.resolved
        sourceFile).length →
      syncDirStep sourceDir targetDir pred targetFiles st sourceFile =
        (⟨st.1.resolved,
            st.1.collisions ++
              [(sourceFile.withParentDirectory sourceDir,
                syncCandidates targetDir pred targetFiles st.1.resolved
                  sourceFile)]⟩,
          st.2)) := by
  refine ⟨fun c => ?_, fun c h => ?_, fun h => ?_, fun h => ?_⟩
  · simp only [syncCandidates, List.mem_filter, List.mem_map,
      Bool.not_eq_true']
    constructor
    · rintro ⟨⟨t, ⟨ht, hp⟩, rfl⟩, hres⟩
      exact ⟨t, ht, hp, rfl, hres⟩
    · rintro ⟨t, ht, hp, rfl, hres⟩
      exact ⟨⟨t, ⟨ht, hp⟩, rfl⟩, hres⟩
  · simp only [syncDirStep, h]
  · simp only [syncDirStep, h]
  · rcases hc : syncCandidates targetDir pred targetFiles st.1.resolved
        sourceFile with _ | ⟨c₁, _ | ⟨c₂, cs⟩⟩ <;> rw [hc] at h
    · simp at h
    · simp at h
    · simp only [syncDirStep, hc]

end SyncName

namespace SyncName

/-- Witness for C2: the one-candidate branch at a concrete input — one
target file `"ab.x"`, an always-true predicate, source `"new.x"`. -/
theorem c2_witness :
    syncDirStep "/s".data "/t".data (fun _ _ => true)
        [parsePath "ab.x".data] (⟨[], []⟩, []) (parsePath "new.x".data) =
      (⟨[] ++ [(parsePath "ab.x".data).withParentDirectory "/t".data], []⟩,
        [] ++ renameFileActs
          ((parsePath "ab.x".data).withParentDirectory "/t".data)
          (parsePath "new.x".data).name) :=
  (c2_directory_matcher_cases "/s".data "/t".data (fun _ _ => true)
    [parsePath "ab.x".data] (⟨[], []⟩, []) (parsePath "new.x".data)).2.1
    ((parsePath "ab.x".data).withParentDirectory "/t".data) (by decide)

end SyncName

/-! ## Lemmas about the collision resolver -/

namespace SyncName

/-- A successful pick is one of the candidates and is not yet claimed. -/
theorem pickCandidate_mem {toRename : List (ParsedFile × JStr)}
    {cands : List ParsedFile} {c : ParsedFile}
    (h : pickCandidate toRename cands = some c) :
    c ∈ cands ∧ toRename.any (fun e => e.1.equal c) = false := by
  have hh : ((cands.filter
      (fun c => !toRename.any (fun e => e.1.equal c))).insertionSort
        candLenGe).head? = some c := h
  have hmem : c ∈ (cands.filter
      (fun c => !toRename.any (fun e => e.1.equal c))).insertionSort
        candLenGe := List.mem_of_mem_head? hh
  rw [(List.perm_insertionSort candLenGe _).mem_iff, List.mem_filter] at hmem
  exact ⟨hmem.1, by simpa using hmem.2⟩

/-- Each key iteration of the resolver adds exactly one entry, to exactly
one of the two schedules. -/
theorem resolveStep_length (cwd sourceRoot targetRoot : JStr)
    (st : List (ParsedFile × JStr) × List (ParsedFile × ParsedFile))
    (entry : ParsedFile × List ParsedFile) :
    (resolveStep cwd sourceRoot targetRoot st entry).1.length +
        (resolveStep cwd sourceRoot targetRoot st entry).2.length =
      st.1.length + st.2.length + 1 := by
  rcases h : pickCandidate st.1 entry.2 with _ | c <;>
    simp [resolveStep, h] <;> omega

theorem resolveFold_length (cwd sourceRoot targetRoot : JStr)
    (l : List (ParsedFile × List ParsedFile))
    (st : List (ParsedFile × JStr) × List (ParsedFile × ParsedFile)) :
    (l.foldl (resolveStep cwd sourceRoot targetRoot) st).1.length +
        (l.foldl (resolveStep cwd sourceRoot targetRoot) st).2.length =
      st.1.length + st.2.length + l.length := by
  induction l generalizing st with
  | nil => simp
  | cons e l ih =>
    rw [List.foldl_cons, ih, resolveStep_length]
    simp +arith

/-- Provenance of the two schedules: every `toRename` entry pairs a
candidate of some collision entry with that entry's source stem, and every
`toCopy` entry pairs a collision key with its mirrored target destination. -/
theorem resolveFold_provenance (cwd sourceRoot targetRoot : JStr)
    (l : List (ParsedFile × List ParsedFile))
    (st : List (ParsedFile × JStr) × List (ParsedFile × ParsedFile)) :
    (∀ e ∈ (l.foldl (resolveStep cwd sourceRoot targetRoot) st).1,
      e ∈ st.1 ∨ ∃ kcs ∈ l, e.2 = kcs.1.name ∧ e.1 ∈ kcs.2) ∧
    (∀ e ∈ (l.foldl (resolveStep cwd sourceRoot targetRoot) st).2,
      e ∈ st.2 ∨ ∃ kcs ∈ l, e.1 = kcs.1 ∧
        e.2 = (kcs.1.relativeTo cwd sourceRoot).withParentDirectory
          targetRoot) := by
  induction l generalizing st with
  | nil => exact ⟨fun e he => Or.inl he, fun e he => Or.inl he⟩
  | cons kcs l ih =>
    rw [List.foldl_cons]
    refine ⟨fun e he => ?_, fun e he => ?_⟩
    · rcases (ih _).1 e he with h | ⟨k, hk, h⟩
      · rcases hpick : pickCandidate st.1 kcs.2 with _ | c <;>
          rw [resolveStep, hpick] at h
        · exact Or.inl h
        · simp only [List.mem_append, List.mem_singleton] at h
          rcases h with h | rfl
          · exact Or.inl h
          · exact Or.inr ⟨kcs, List.mem_cons_self _ _,
              rfl, (pickCandidate_mem hpick).1⟩
      · exact Or.inr ⟨k, List.mem_cons_of_mem _ hk, h⟩
    · rcases (ih _).2 e he with h | ⟨k, hk, h⟩
      · rcases hpick : pickCandidate st.1 kcs.2 with _ | c <;>
          rw [resolveStep, hpick] at h
        · simp only [List.mem_append, List.mem_singleton] at h
          rcases h with h | rfl
          · exact Or.inl h
          · exact Or.inr ⟨kcs, List.mem_cons_self _ _, rfl, rfl⟩
        · exact Or.inl h
      · exact Or.inr ⟨k, List.mem_cons_of_mem _ hk, h⟩

end SyncName

namespace SyncName

/-- C4: collision totality — the resolver turns the `n` collision entries
into exactly `n` scheduled outcomes, split between `toRename` and `toCopy`
(no entry is dropped, none is counted twice), and each scheduled outcome
stems from a collision entry: a rename claims a candidate of some entry
under that entry's source stem, a copy re-homes an entry's source file. -/
theorem c4_collision_totality (cwd sourceRoot targetRoot : JStr)
    (collisions : List (ParsedFile × List ParsedFile)) (pfx : JStr) :
    (resolveCollisions cwd sourceRoot targetRoot collisions pfx).1.length +
        (resolveCollisions cwd sourceRoot targetRoot collisions
          pfx).2.1.length = collisions.length ∧
    (∀ e ∈ (resolveCollisions cwd sourceRoot targetRoot collisions pfx).1,
      ∃ kcs ∈ collisions, e.2 = kcs.1.name ∧ e.1 ∈ kcs.2) ∧
    (∀ e ∈ (resolveCollisions cwd sourceRoot targetRoot collisions
        pfx).2.1,
      ∃ kcs ∈ collisions, e.1 = kcs.1 ∧
        e.2 = (kcs.1.relativeTo cwd sourceRoot).withParentDirectory
          targetRoot) := by
  have hperm := List.perm_insertionSort keyLenGe collisions
  refine ⟨?_, fun e he => ?_, fun e he => ?_⟩
  · have := resolveFold_length cwd sourceRoot targetRoot
      (sortCollisions collisions) ([], [])
    simpa [resolveCollisions, sortCollisions, hperm.length_eq] using this
  · rcases (resolveFold_provenance cwd sourceRoot targetRoot
        (sortCollisions collisions) ([], [])).1 e he with h | ⟨k, hk, h⟩
    · simp at h
    · exact ⟨k, hperm.mem_iff.mp hk, h⟩
  · rcases (resolveFold_provenance cwd sourceRoot targetRoot
        (sortCollisions collisions) ([], [])).2 e he with h | ⟨k, hk, h⟩
    · simp at h
    · exact ⟨k, hperm.mem_iff.mp hk, h⟩

/-- Witness for C4 at a concrete input: one collision entry with one
candidate is resolved into exactly one rename. -/
theorem c4_witness :
    (resolveCollisions "/c".data "/s".data "/t".data
        [(parsePath "/s/ab.x".data, [parsePath "/t/a.x".data])]
        "p".data).1.length +
      (resolveCollisions "/c".data "/s".data "/t".data
        [(parsePath "/s/ab.x".data, [parsePath "/t/a.x".data])]
        "p".data).2.1.length = 1 ∧
    (parsePath "/t/a.x".data, "ab".data) ∈
      (resolveCollisions "/c".data "/s".data "/t".data
        [(parsePath "/s/ab.x".data, [parsePath "/t/a.x".data])]
        "p".data).1 ∧
    ∃ kcs ∈ [(parsePath "/s/ab.x".data, [parsePath "/t/a.x".data])],
      ("ab".data : JStr) = kcs.1.name ∧ parsePath "/t/a.x".data ∈ kcs.2 := by
  refine ⟨(c4_collision_totality "/c".data "/s".data "/t".data
    [(parsePath "/s/ab.x".data, [parsePath "/t/a.x".data])] "p".data).1,
    by decide, ?_⟩
  exact (c4_collision_totality "/c".data "/s".data "/t".data
    [(parsePath "/s/ab.x".data, [parsePath "/t/a.x".data])] "p".data).2.1
    (parsePath "/t/a.x".data, "ab".data) (by decide)

end SyncName

namespace SyncName

/-- Specification-side description of `.sort(byNameLenDesc)[0]`: the first
element of maximal stem length (earlier elements win ties). -/
def specFirstMax : List ParsedFile → Option ParsedFile
  | [] => none
  | a :: l =>
    match specFirstMax l with
    | none => some a
    | some b => if b.name.length ≤ a.name.length then some a else some b

theorem head?_orderedInsert (a : ParsedFile) (s : List ParsedFile) :
    (List.orderedInsert candLenGe a s).head? =
      match s with
      | [] => some a
      | b :: _ => if candLenGe a b then some a else some b := by
  cases s with
  | nil => rfl
  | cons b t =>
    by_cases h : candLenGe a b <;>
      simp [List.orderedInsert, h]

/-- The head of the stable descending sort is the first element of maximal
stem length. -/
theorem head?_insertionSort_eq_specFirstMax (l : List ParsedFile) :
    (l.insertionSort candLenGe).head? = specFirstMax l := by
  induction l with
  | nil => rfl
  | cons a l ih =>
    rw [List.insertionSort, head?_orderedInsert]
    cases hs : l.insertionSort candLenGe with
    | nil =>
      rw [hs] at ih
      simp only [specFirstMax, ← ih]
      rfl
    | cons b t =>
      rw [hs] at ih
      simp only [specFirstMax, ← ih, List.head?_cons, candLenGe]

theorem specFirstMax_eq_none {l : List ParsedFile} :
    specFirstMax l = none ↔ l = [] := by
  cases l with
  | nil => simp [specFirstMax]
  | cons a l =>
    simp only [specFirstMax]
    cases specFirstMax l with
    | none => simp
    | some b =>
      by_cases h : b.name.length ≤ a.name.length <;> simp [h]

theorem specFirstMax_spec {l : List ParsedFile} :
    ∀ {c : ParsedFile}, specFirstMax l = some c →
      c ∈ l ∧ (∀ x ∈ l, x.name.length ≤ c.name.length) ∧
        ∃ pre suf, l = pre ++ c :: suf ∧
          ∀ x ∈ pre, x.name.length < c.name.length := by
  induction l with
  | nil => intro c h; simp [specFirstMax] at h
  | cons a l ih =>
    intro c h
    rw [specFirstMax] at h
    cases hs : specFirstMax l with
    | none =>
      rw [hs] at h
      obtain rfl : a = c := by simpa using h
      obtain rfl : l = [] := specFirstMax_eq_none.mp hs
      exact ⟨List.mem_cons_self _ _, by simp, [], [], rfl, by simp⟩
    | some b =>
      rw [hs] at h
      dsimp only at h
      by_cases hab : b.name.length ≤ a.name.length
      · rw [if_pos hab] at h
        obtain rfl : a = c := by simpa using h
        refine ⟨List.mem_cons_self _ _, ?_, [], l, rfl, by simp⟩
        intro x hx
        rcases List.mem_cons.mp hx with rfl | hx
        · exact Nat.le_refl _
        · exact Nat.le_trans ((ih hs).2.1 x hx) hab
      · rw [if_neg hab] at h
        obtain rfl : b = c := by simpa using h
        obtain ⟨hbmem, hbmax, pre, suf, hsplit, hpre⟩ := ih hs
        push_neg at hab
        refine ⟨List.mem_cons_of_mem _ hbmem, ?_, a :: pre, suf,
          by simp [hsplit], ?_⟩
        · intro x hx
          rcases List.mem_cons.mp hx with rfl | hx
          · exact Nat.le_of_lt hab
          · exact hbmax x hx
        · intro x hx
          rcases List.mem_cons.mp hx with rfl | hx
          · exact hab
          · exact hpre x hx

end SyncName

namespace SyncName

/-- C3: the resolver processes collision keys in descending order of source
stem length (the processed sequence is sorted descending and is a
permutation of the input); for each key the pick is an unclaimed candidate
of maximal stem length, the earliest such candidate in original order; a
scheduled rename renames the picked candidate to the source stem followed
by a space and the postfix; and on candidate stem lengths `[3, 7, 5]` the
length-7 candidate is chosen. -/
theorem c3_resolver_order_and_longest_pick
    (cwd sourceRoot targetRoot : JStr)
    (collisions : List (ParsedFile × List ParsedFile)) (pfx : JStr)
    (toRename : List (ParsedFile × JStr)) (cands : List ParsedFile)
    (c : ParsedFile) (hpick : pickCandidate toRename cands = some c) :
    List.Sorted keyLenGe (sortCollisions collisions) ∧
    (sortCollisions collisions).Perm collisions ∧
    (c ∈ cands.filter (fun x => !toRename.any (fun e => e.1.equal x)) ∧
      (∀ x ∈ cands.filter (fun x => !toRename.any (fun e => e.1.equal x)),
        x.name.length ≤ c.name.length) ∧
      ∃ pre suf,
        cands.filter (fun x => !toRename.any (fun e => e.1.equal x)) =
          pre ++ c :: suf ∧
        ∀ x ∈ pre, x.name.length < c.name.length) ∧
    (∀ e ∈ (resolveCollisions cwd sourceRoot targetRoot collisions pfx).1,
      e.1.name ≠ e.2 ++ ' ' :: pfx →
      FsAction.rename e.1.fullPath
          ((e.1.withName (e.2 ++ ' ' :: pfx)).fullPath) ∈
        (resolveCollisions cwd sourceRoot targetRoot collisions
          pfx).2.2) ∧
    pickCandidate [] [parsePath "abc.x".data, parsePath "abcdefg.x".data,
      parsePath "abcde.x".data] = some (parsePath "abcdefg.x".data) := by
  have hfm : specFirstMax
      (cands.filter (fun x => !toRename.any (fun e => e.1.equal x))) =
        some c := by
    rw [← head?_insertionSort_eq_specFirstMax]
    exact hpick
  obtain ⟨hmem, hmax, pre, suf, hsplit, hpre⟩ := specFirstMax_spec hfm
  refine ⟨List.sorted_insertionSort keyLenGe collisions,
    List.perm_insertionSort keyLenGe collisions,
    ⟨hmem, hmax, pre, suf, hsplit, hpre⟩, fun e he hne => ?_, by decide⟩
  simp only [resolveCollisions, List.mem_append]
  left
  rw [List.mem_flatten]
  refine ⟨renameFileActs e.1 (e.2 ++ ' ' :: pfx), List.mem_map_of_mem _ he,
    ?_⟩
  rw [renameFileActs, if_pos hne]
  exact List.mem_singleton.mpr rfl

/-- Witness for C3 at a concrete input: on candidates of stem lengths
`[3, 7, 5]` with nothing yet claimed, the earliest longest candidate
(`"abcdefg"`) is a member of the unclaimed candidate filter. -/
theorem c3_witness :
    parsePath "abcdefg.x".data ∈
      [parsePath "abc.x".data, parsePath "abcdefg.x".data,
        parsePath "abcde.x".data].filter
        (fun x => !(([] : List (ParsedFile × JStr)).any
          (fun e => e.1.equal x))) :=
  (c3_resolver_order_and_longest_pick "/c".data "/s".data "/t".data []
    "p".data [] [parsePath "abc.x".data, parsePath "abcdefg.x".data,
      parsePath "abcde.x".data] (parsePath "abcdefg.x".data)
    (by decide)).2.2.1.1

end SyncName

/-! ## Reparse stability of canonical descriptors -/

namespace SyncName

/-- A descriptor in the canonical form produced by `path.parse`: non-empty
separator-free basename, root `""` or `"/"`, and `name`/`ext` split exactly
as `path.parse` splits the basename.  Every descriptor built by parsing a
directory entry has this shape, and the shape survives the reparse performed
by the `with…`/`relativeTo` copy operations. -/
def Canonical (f : ParsedFile) : Prop :=
  f.base ≠ [] ∧ '/' ∉ f.base ∧ (f.root = [] ∨ f.root = ['/']) ∧
    nameExtSplit f.base = (f.name, f.ext)

instance : DecidablePred Canonical := fun f => by
  unfold Canonical; infer_instance

theorem takeWhile_append_stop {α : Type} {p : α → Bool} {l₁ : List α}
    (l₂ : List α) {x : α} (h₁ : ∀ y ∈ l₁, p y = true) (hx : p x = false) :
    (l₁ ++ x :: l₂).takeWhile p = l₁ ∧
      (l₁ ++ x :: l₂).dropWhile p = x :: l₂ := by
  induction l₁ with
  | nil => simp [List.takeWhile_cons, List.dropWhile_cons, hx]
  | cons a l ih =>
    have ha : p a = true := h₁ a (List.mem_cons_self _ _)
    have := ih (fun y hy => h₁ y (List.mem_cons_of_mem _ hy))
    simp [List.takeWhile_cons, List.dropWhile_cons, ha, this.1, this.2]

theorem nameExtSplit_append (b : JStr) :
    (nameExtSplit b).1 ++ (nameExtSplit b).2 = b := by
  rw [nameExtSplit]
  rcases b.reverse.findIdx? (· = '.') with _ | i
  · simp
  · dsimp only
    split
    · simp
    · split
      · simp
      · exact List.take_append_drop _ b

/-- `path.parse` on a separator-free non-empty string: everything is the
basename. -/
theorem parsePath_no_slash {b : JStr} (hb : b ≠ []) (hs : '/' ∉ b) :
    parsePath b = ⟨[], [], (nameExtSplit b).1, (nameExtSplit b).2⟩ := by
  have habs : ¬ b.head? = some '/' := fun h => hs (List.mem_of_mem_head? h)
  have hrevne : b.reverse ≠ [] := by simpa using hb
  have hall : ∀ x ∈ b.reverse, (decide ¬(x = '/')) = true := by
    intro x hx
    simp only [decide_not, Bool.not_eq_true', decide_eq_false_iff_not]
    exact fun hcon => hs (List.mem_reverse.mp (hcon ▸ hx))
  have hdropped : b.reverse.dropWhile (fun x => decide (x = '/')) =
      b.reverse := by
    rcases hr : b.reverse with _ | ⟨c, cs⟩
    · exact absurd hr hrevne
    · have : (decide (c = '/')) = false := by
        have := hall c (by rw [hr]; exact List.mem_cons_self _ _)
        simpa using this
      simp [List.dropWhile_cons, this]
  have htake : b.reverse.takeWhile (fun x => decide ¬(x = '/')) =
      b.reverse := by
    rw [List.takeWhile_eq_self_iff]; exact hall
  have hdrop2 : b.reverse.dropWhile (fun x => decide ¬(x = '/')) = [] := by
    rw [List.dropWhile_eq_nil_iff]; exact hall
  simp only [parsePath, if_neg hb, habs, if_false, if_neg habs, List.drop_zero,
    hdropped, if_neg hrevne, htake, hdrop2, if_pos rfl, List.reverse_reverse]
  simp

end SyncName


namespace SyncName

theorem scan_helper {b : JStr} (tail : JStr) (hb : b ≠ []) (hs : '/' ∉ b) :
    ((b.reverse ++ '/' :: tail).dropWhile (fun x => decide (x = '/')) =
      b.reverse ++ '/' :: tail) ∧
    ((b.reverse ++ '/' :: tail).takeWhile (fun x => decide ¬(x = '/')) =
      b.reverse) ∧
    ((b.reverse ++ '/' :: tail).dropWhile (fun x => decide ¬(x = '/')) =
      '/' :: tail) := by
  have hall : ∀ y ∈ b.reverse, (decide ¬(y = '/')) = true := by
    intro y hy
    simp only [decide_not, Bool.not_eq_true', decide_eq_false_iff_not]
    exact fun hcon => hs (List.mem_reverse.mp (hcon ▸ hy))
  have hslash : (decide ¬(('/' : Char) = '/')) = false := by simp
  have hstop := takeWhile_append_stop tail hall hslash
  refine ⟨?_, hstop.1, hstop.2⟩
  obtain ⟨c, cs, hcs⟩ : ∃ c cs, b.reverse = c :: cs := by
    rcases hr : b.reverse with _ | ⟨c, cs⟩
    · exact absurd (by simpa using hr) hb
    · exact ⟨c, cs, rfl⟩
  have hc : (decide (c = '/')) = false := by
    have := hall c (by rw [hcs]; exact List.mem_cons_self _ _)
    simpa using this
  rw [hcs, List.cons_append, List.dropWhile_cons, hc]
  simp

/-- `path.parse` of `dir ++ "/" ++ basename` for a non-empty `dir` and a
separator-free non-empty basename: `dir` is recovered exactly. -/
theorem parsePath_dir_slash_base {D b : JStr} (hD : D ≠ []) (hb : b ≠ [])
    (hs : '/' ∉ b) :
    parsePath (D ++ '/' :: b) =
      ⟨if D.head? = some '/' then ['/'] else [], D,
        (nameExtSplit b).1, (nameExtSplit b).2⟩ := by
  obtain ⟨d, D', rfl⟩ : ∃ d D', D = d :: D' := by
    rcases D with _ | ⟨d, D'⟩
    · exact absurd rfl hD
    · exact ⟨d, D', rfl⟩
  have hpne : (d :: D') ++ '/' :: b ≠ [] := by simp
  have hrev : ((d :: D') ++ '/' :: b).reverse.dropWhile
      (fun x => decide (x = '/')) = b.reverse ++ '/' :: (d :: D').reverse
      := by
    rw [show ((d :: D') ++ '/' :: b).reverse =
      b.reverse ++ '/' :: (d :: D').reverse by simp]
    exact (scan_helper ((d :: D').reverse) hb hs).1
  have hsc := scan_helper ((d :: D').reverse) hb hs
  have hne1 : b.reverse ++ '/' :: (d :: D').reverse ≠ [] := by simp
  have hne2 : ('/' :: (d :: D').reverse : JStr) ≠ [] := by simp
  by_cases hd : d = '/'
  · subst hd
    have habs : (('/' :: D') ++ '/' :: b).head? = some '/' := rfl
    have hdrop : (('/' :: D') ++ '/' :: b).drop 1 = D' ++ '/' :: b := by simp
    have hrev1 : (D' ++ '/' :: b).reverse.dropWhile
        (fun x => decide (x = '/')) = b.reverse ++ '/' :: D'.reverse := by
      rw [show (D' ++ '/' :: b).reverse =
        b.reverse ++ '/' :: D'.reverse by simp]
      exact (scan_helper D'.reverse hb hs).1
    have hsc1 := scan_helper D'.reverse hb hs
    have hne1' : b.reverse ++ '/' :: D'.reverse ≠ [] := by simp
    have hne2' : ('/' :: D'.reverse : JStr) ≠ [] := by simp
    simp only [parsePath, if_neg hpne, habs, if_pos habs, if_true, hdrop,
      hrev1, if_neg hne1', hsc1.2.1, hsc1.2.2, if_neg hne2',
      List.reverse_reverse]
    have hlen : 1 + ('/' :: D'.reverse : JStr).length - 1 =
        ('/' :: D' : JStr).length := by simp
    rw [hlen, List.take_left]
    simp
  · have habs : ¬ ((d :: D') ++ '/' :: b).head? = some '/' := by simp [hd]
    have hdrop : ((d :: D') ++ '/' :: b).drop 0 = (d :: D') ++ '/' :: b :=
      List.drop_zero _
    simp only [parsePath, if_neg hpne, if_neg habs, hdrop, hrev,
      if_neg hne1, hsc.2.1, hsc.2.2, if_neg hne2, List.reverse_reverse]
    have hlen : 0 + ('/' :: (d :: D').reverse : JStr).length - 1 =
        (d :: D' : JStr).length := by simp
    rw [hlen, List.take_left]
    simp [hd]

end SyncName


namespace SyncName

/-- `path.parse` of `'/' ++ basename` for a separator-free basename. -/
theorem parsePath_abs_no_slash {b : JStr} (hb : b ≠ []) (hs : '/' ∉ b) :
    parsePath ('/' :: b) =
      ⟨['/'], ['/'], (nameExtSplit b).1, (nameExtSplit b).2⟩ := by
  have hpne : ('/' :: b : JStr) ≠ [] := by simp
  have habs : ('/' :: b : JStr).head? = some '/' := rfl
  have hrevne : b.reverse ≠ [] := by simpa using hb
  have hall : ∀ x ∈ b.reverse, (decide ¬(x = '/')) = true := by
    intro x hx
    simp only [decide_not, Bool.not_eq_true', decide_eq_false_iff_not]
    exact fun hcon => hs (List.mem_reverse.mp (hcon ▸ hx))
  have hdropped : b.reverse.dropWhile (fun x => decide (x = '/')) =
      b.reverse := by
    rcases hr : b.reverse with _ | ⟨c, cs⟩
    · exact absurd hr hrevne
    · have : (decide (c = '/')) = false := by
        have := hall c (by rw [hr]; exact List.mem_cons_self _ _)
        simpa using this
      simp [List.dropWhile_cons, this]
  have htake : b.reverse.takeWhile (fun x => decide ¬(x = '/')) =
      b.reverse := by
    rw [List.takeWhile_eq_self_iff]; exact hall
  have hdrop2 : b.reverse.dropWhile (fun x => decide ¬(x = '/')) = [] := by
    rw [List.dropWhile_eq_nil_iff]; exact hall
  have hdrop1 : ('/' :: b : JStr).drop 1 = b := rfl
  simp only [parsePath, if_neg hpne, habs, if_pos habs, if_true, hdrop1,
    hdropped, if_neg hrevne, htake, hdrop2, if_pos rfl,
    List.reverse_reverse]

/-- Reparsing the formatted path of a canonical descriptor preserves the
basename and its `name`/`ext` split; the result is canonical again. -/
theorem parse_format_canonical {f : ParsedFile} (hf : Canonical f) :
    (parsePath f.fullPath).name = f.name ∧
    (parsePath f.fullPath).ext = f.ext ∧
    (parsePath f.fullPath).base = f.base ∧
    Canonical (parsePath f.fullPath) := by
  obtain ⟨hbne, hbs, hroot, hsplit⟩ := hf
  have hsplit1 : (nameExtSplit f.base).1 = f.name := by rw [hsplit]
  have hsplit2 : (nameExtSplit f.base).2 = f.ext := by rw [hsplit]
  have hform : f.fullPath = pathFormat f := rfl
  have hmain :
      parsePath f.fullPath =
        ⟨if f.dir.head? = some '/' then ['/'] else [], f.dir,
          (nameExtSplit f.base).1, (nameExtSplit f.base).2⟩ ∨
      parsePath f.fullPath =
        ⟨[], [], (nameExtSplit f.base).1, (nameExtSplit f.base).2⟩ ∨
      parsePath f.fullPath =
        ⟨['/'], ['/'], (nameExtSplit f.base).1, (nameExtSplit f.base).2⟩ := by
    by_cases hdir : f.dir = []
    · rcases hroot with hr | hr
      · right; left
        have hpf : pathFormat f = f.base := by simp [pathFormat, hdir, hr]
        rw [hform, hpf]
        exact parsePath_no_slash hbne hbs
      · right; right
        have hpf : pathFormat f = '/' :: f.base := by
          simp [pathFormat, hdir, hr]
        rw [hform, hpf]
        exact parsePath_abs_no_slash hbne hbs
    · by_cases hdr : f.dir = f.root
      · rcases hroot with hr | hr
        · exact absurd (hdr.trans hr) hdir
        · right; right
          have hpf : pathFormat f = '/' :: f.base := by
            simp [pathFormat, hdir, hdr, hr]
          rw [hform, hpf]
          exact parsePath_abs_no_slash hbne hbs
      · left
        have hpf : pathFormat f = f.dir ++ '/' :: f.base := by
          simp [pathFormat, hdir, hdr]
        rw [hform, hpf]
        exact parsePath_dir_slash_base hdir hbne hbs
  have hcanon : ∀ r d, (r = [] ∨ r = ['/']) →
      Canonical ⟨r, d, (nameExtSplit f.base).1, (nameExtSplit f.base).2⟩ := by
    intro r d hr
    have hb : (ParsedFile.mk r d (nameExtSplit f.base).1
        (nameExtSplit f.base).2).base = f.base := by
      simp only [ParsedFile.base]
      exact nameExtSplit_append f.base
    refine ⟨by rw [hb]; exact hbne, by rw [hb]; exact hbs, hr, ?_⟩
    rw [hb, hsplit]
  have hbase : ∀ r d, (ParsedFile.mk r d (nameExtSplit f.base).1
      (nameExtSplit f.base).2).base = f.base := by
    intro r d
    simp only [ParsedFile.base]
    exact nameExtSplit_append f.base
  rcases hmain with h | h | h <;> rw [h]
  · refine ⟨hsplit1, hsplit2, hbase _ _, ?_⟩
    apply hcanon
    by_cases hcond : f.dir.head? = some '/'
    · right; rw [if_pos hcond]
    · left; rw [if_neg hcond]
  · exact ⟨hsplit1, hsplit2, hbase _ _, hcanon _ _ (Or.inl rfl)⟩
  · exact ⟨hsplit1, hsplit2, hbase _ _, hcanon _ _ (Or.inr rfl)⟩

end SyncName

namespace SyncName

theorem canonical_set_dir {f : ParsedFile} (hf : Canonical f) (d : JStr) :
    Canonical ⟨f.root, d, f.name, f.ext⟩ := by
  obtain ⟨h₁, h₂, h₃, h₄⟩ := hf
  exact ⟨h₁, h₂, h₃, h₄⟩

/-- `withParentDirectory` keeps the basename split of a canonical
descriptor and only rewrites `dir`. -/
theorem withParentDirectory_fields {f : ParsedFile} (d : JStr)
    (hf : Canonical f) :
    (f.withParentDirectory d).name = f.name ∧
    (f.withParentDirectory d).ext = f.ext ∧
    (f.withParentDirectory d).dir = pathJoin [d, f.dir] ∧
    Canonical (f.withParentDirectory d) := by
  obtain ⟨hn, he, hb, hc⟩ := parse_format_canonical hf
  refine ⟨?_, ?_, rfl, ?_⟩
  · simp only [ParsedFile.withParentDirectory]; exact hn
  · simp only [ParsedFile.withParentDirectory]; exact he
  · have := canonical_set_dir hc (pathJoin [d, f.dir])
    simpa [ParsedFile.withParentDirectory] using this

/-- `relativeTo` keeps the basename split of a canonical descriptor and
only rewrites `dir`. -/
theorem relativeTo_fields {f : ParsedFile} (cwd d : JStr)
    (hf : Canonical f) :
    (f.relativeTo cwd d).name = f.name ∧
    (f.relativeTo cwd d).ext = f.ext ∧
    (f.relativeTo cwd d).dir = pathRelative cwd d f.dir ∧
    Canonical (f.relativeTo cwd d) := by
  obtain ⟨hn, he, hb, hc⟩ := parse_format_canonical hf
  refine ⟨?_, ?_, rfl, ?_⟩
  · simp only [ParsedFile.relativeTo]; exact hn
  · simp only [ParsedFile.relativeTo]; exact he
  · have := canonical_set_dir hc (pathRelative cwd d f.dir)
    simpa [ParsedFile.relativeTo] using this

/-- `withName` overwrites exactly the `name` field. -/
theorem withName_name (f : ParsedFile) (n : JStr) :
    (f.withName n).name = n := rfl

end SyncName

namespace SyncName

/-- C5: when every candidate of a collision key was already claimed, the key
is scheduled for a copy whose destination is the source file's path made
relative to `sourceRoot` and reparented under `targetRoot`; the emitted
filesystem copy targets that destination with `name` equal to the source
stem followed by a space and the postfix (for canonical source
descriptors).  In the concrete two-sources-one-candidate scenario (stems
`"abcd"` and `"ab"` both colliding with the single target `"t1.x"`), the
longer-stemmed source claims the rename and the shorter-stemmed source
falls back to the postfixed copy `"/t/ab p.x"`. -/
theorem c5_exhausted_candidates_fallback_copy
    (cwd sourceRoot targetRoot : JStr)
    (collisions : List (ParsedFile × List ParsedFile)) (pfx : JStr) :
    (∀ e ∈ (resolveCollisions cwd sourceRoot targetRoot collisions
        pfx).2.1,
      (∃ kcs ∈ collisions, e.1 = kcs.1 ∧
        e.2 = (kcs.1.relativeTo cwd sourceRoot).withParentDirectory
          targetRoot) ∧
      FsAction.copy e.1.fullPath
          ((e.2.withName (e.2.name ++ ' ' :: pfx)).fullPath) ∈
        (resolveCollisions cwd sourceRoot targetRoot collisions pfx).2.2 ∧
      (Canonical e.1 →
        (e.2.withName (e.2.name ++ ' ' :: pfx)).name =
          e.1.name ++ ' ' :: pfx)) ∧
    (resolveCollisions "/c".data "/s".data "/t".data
        [((parsePath "ab.x".data).withParentDirectory "/s".data,
            [(parsePath "t1.x".data).withParentDirectory "/t".data]),
          ((parsePath "abcd.x".data).withParentDirectory "/s".data,
            [(parsePath "t1.x".data).withParentDirectory "/t".data])]
        "p".data).2.2 =
      [FsAction.rename "/t/t1.x".data "/t/abcd p.x".data,
        FsAction.copy "/s/ab.x".data "/t/ab p.x".data] := by
  constructor
  · intro e he
    have hprov := (c4_collision_totality cwd sourceRoot targetRoot
      collisions pfx).2.2 e he
    refine ⟨hprov, ?_, ?_⟩
    · simp only [resolveCollisions, List.mem_append]
      right
      rw [List.mem_flatten]
      exact ⟨copyFileActs e.1 (e.2.withName (e.2.name ++ ' ' :: pfx)),
        List.mem_map_of_mem _ he, List.mem_singleton.mpr rfl⟩
    · intro hcan
      obtain ⟨kcs, _, hk, hd⟩ := hprov
      have h₁ := relativeTo_fields cwd sourceRoot (hk ▸ hcan)
      have h₂ := withParentDirectory_fields targetRoot h₁.2.2.2
      rw [withName_name, hd, h₂.1, h₁.1, hk]
  · decide

/-- Witness for C5 at the two-sources-one-candidate scenario: the
shorter-stemmed source `"ab"` is scheduled for the fallback copy, and the
copy action into the target tree is emitted. -/
theorem c5_witness :
    FsAction.copy
        ((parsePath "ab.x".data).withParentDirectory "/s".data).fullPath
        (((((parsePath "ab.x".data).withParentDirectory
                "/s".data).relativeTo "/c".data
              "/s".data).withParentDirectory "/t".data).withName
          (((((parsePath "ab.x".data).withParentDirectory
                "/s".data).relativeTo "/c".data
              "/s".data).withParentDirectory "/t".data).name ++
            ' ' :: "p".data)).fullPath ∈
      (resolveCollisions "/c".data "/s".data "/t".data
        [((parsePath "ab.x".data).withParentDirectory "/s".data,
            [(parsePath "t1.x".data).withParentDirectory "/t".data]),
          ((parsePath "abcd.x".data).withParentDirectory "/s".data,
            [(parsePath "t1.x".data).withParentDirectory "/t".data])]
        "p".data).2.2 :=
  ((c5_exhausted_candidates_fallback_copy "/c".data "/s".data "/t".data
    [((parsePath "ab.x".data).withParentDirectory "/s".data,
        [(parsePath "t1.x".data).withParentDirectory "/t".data]),
      ((parsePath "abcd.x".data).withParentDirectory "/s".data,
        [(parsePath "t1.x".data).withParentDirectory "/t".data])]
    "p".data).1
    ((parsePath "ab.x".data).withParentDirectory "/s".data,
      ((((parsePath "ab.x".data).withParentDirectory
            "/s".data).relativeTo "/c".data
          "/s".data).withParentDirectory "/t".data))
    (by decide)).2.1

end SyncName

/-! ## Per-pass no-double-claim invariants, and the cross-pass failure -/

namespace SyncName

/-- Pairwise distinctness of formatted paths. -/
def PathDistinct (l : List ParsedFile) : Prop :=
  l.Pairwise (fun a b => a.fullPath ≠ b.fullPath)

instance : DecidablePred PathDistinct := fun l => by
  rw [PathDistinct]; infer_instance

theorem syncDirStep_preserves_distinct (sourceDir targetDir : JStr)
    (pred : ParsedFile → ParsedFile → Bool)
    (targetFiles : List ParsedFile) (st : SyncResults × List FsAction)
    (sourceFile : ParsedFile) (h : PathDistinct st.1.resolved) :
    PathDistinct
      ((syncDirStep sourceDir targetDir pred targetFiles st
        sourceFile).1.resolved) := by
  rcases hc : syncCandidates targetDir pred targetFiles st.1.resolved
      sourceFile with _ | ⟨c, _ | ⟨c₂, cs⟩⟩
  · simp only [syncDirStep, hc]; exact h
  · have hcmem : c ∈ syncCandidates targetDir pred targetFiles
        st.1.resolved sourceFile := by
      rw [hc]; exact List.mem_cons_self _ _
    have hfresh : ∀ f ∈ st.1.resolved, f.fullPath ≠ c.fullPath := by
      have := (List.mem_filter.mp hcmem).2
      simp only [Bool.not_eq_true', List.any_eq_false] at this
      intro f hf
      have := this f hf
      simpa [ParsedFile.equal] using this
    simp only [syncDirStep, hc]
    rw [PathDistinct, List.pairwise_append]
    exact ⟨h, List.pairwise_singleton _ _,
      fun a ha b hb => by
        rw [List.mem_singleton] at hb
        subst hb
        exact fun hcon => hfresh a ha hcon⟩
  · simp only [syncDirStep, hc]; exact h

theorem syncDir_fold_preserves_distinct (sourceDir targetDir : JStr)
    (pred : ParsedFile → ParsedFile → Bool)
    (targetFiles : List ParsedFile) (l : List ParsedFile)
    (st : SyncResults × List FsAction) (h : PathDistinct st.1.resolved) :
    PathDistinct
      ((l.foldl (syncDirStep sourceDir targetDir pred targetFiles)
        st).1.resolved) := by
  induction l generalizing st with
  | nil => exact h
  | cons a l ih =>
    exact ih _ (syncDirStep_preserves_distinct _ _ _ _ _ _ h)

theorem syncDir_preserves_distinct (sourceDir targetDir : JStr)
    (pred : ParsedFile → ParsedFile → Bool)
    (sourceNames targetNames : List JStr) (init : SyncResults)
    (h : PathDistinct init.resolved) :
    PathDistinct
      ((syncDir sourceDir targetDir pred sourceNames targetNames
        init).1.resolved) :=
  syncDir_fold_preserves_distinct _ _ _ _ _ _ h

theorem syncNames_fold_preserves_distinct
    (pred : ParsedFile → ParsedFile → Bool) (pairs : List DirPair)
    (st : SyncResults × List FsAction) (h : PathDistinct st.1.resolved) :
    PathDistinct
      ((pairs.foldl
        (fun st pr =>
          let r := syncDir pr.sourceDir pr.targetDir pred
            pr.sourceNames pr.targetNames st.1
          (r.1, st.2 ++ r.2)) st).1.resolved) := by
  induction pairs generalizing st with
  | nil => exact h
  | cons pr prs ih =>
    exact ih _ (syncDir_preserves_distinct _ _ _ _ _ _ h)

theorem syncNames_preserves_distinct
    (pred : ParsedFile → ParsedFile → Bool) (pairs : List DirPair)
    (init : SyncResults) (h : PathDistinct init.resolved) :
    PathDistinct ((syncNames pred pairs init).1.resolved) :=
  syncNames_fold_preserves_distinct pred pairs (init, []) h

theorem resolveFold_toRename_distinct (cwd sourceRoot targetRoot : JStr)
    (l : List (ParsedFile × List ParsedFile))
    (st : List (ParsedFile × JStr) × List (ParsedFile × ParsedFile))
    (h : st.1.Pairwise (fun a b => a.1.fullPath ≠ b.1.fullPath)) :
    ((l.foldl (resolveStep cwd sourceRoot targetRoot) st).1).Pairwise
      (fun a b => a.1.fullPath ≠ b.1.fullPath) := by
  induction l generalizing st with
  | nil => exact h
  | cons entry l ih =>
    rw [List.foldl_cons]
    apply ih
    rcases hpick : pickCandidate st.1 entry.2 with _ | c
    · simpa [resolveStep, hpick] using h
    · have hfresh : ∀ e ∈ st.1, e.1.fullPath ≠ c.fullPath := by
        have := (pickCandidate_mem hpick).2
        simp only [List.any_eq_false] at this
        intro e he
        have := this e he
        simpa [ParsedFile.equal] using this
      simp only [resolveStep, hpick]
      rw [List.pairwise_append]
      exact ⟨h, List.pairwise_singleton _ _,
        fun a ha b hb => by
          rw [List.mem_singleton] at hb
          subst hb
          exact fun hcon => hfresh a ha hcon⟩

end SyncName

namespace SyncName

/-- C1 counterexample: across one whole run the no-double-claim invariant
fails.  With source listing `["abcd.x","abd.x","abce.x"]` and target listing
`["ab.x","abc.x"]` under the shipped predicate, the walk records a collision
for `"abcd"` with candidates `["/t/ab.x","/t/abc.x"]`, then resolves and
renames `"/t/ab.x"` for `"abd"` and `"/t/abc.x"` for `"abce"`; the collision
pass, which filters candidates only against its own `toRename`, then picks
the already-claimed `"/t/abc.x"` again and schedules a second rename of the
same target file for the distinct source `"abcd"`. -/
theorem c1_counterexample :
    FsAction.rename "/t/abc.x".data "/t/abce.x".data ∈
      (syncDir "/s".data "/t".data areSyncable
        ["abcd.x".data, "abd.x".data, "abce.x".data]
        ["ab.x".data, "abc.x".data] ⟨[], []⟩).2 ∧
    "/t/abc.x".data ∈
      (syncDir "/s".data "/t".data areSyncable
        ["abcd.x".data, "abd.x".data, "abce.x".data]
        ["ab.x".data, "abc.x".data] ⟨[], []⟩).1.resolved.map
        ParsedFile.fullPath ∧
    ((resolveCollisions "/c".data "/s".data "/t".data
        (syncDir "/s".data "/t".data areSyncable
          ["abcd.x".data, "abd.x".data, "abce.x".data]
          ["ab.x".data, "abc.x".data] ⟨[], []⟩).1.collisions
        "p".data).1.map (fun e => (e.1.fullPath, e.2))) =
      [("/t/abc.x".data, "abcd".data)] ∧
    FsAction.rename "/t/abc.x".data "/t/abcd p.x".data ∈
      (resolveCollisions "/c".data "/s".data "/t".data
        (syncDir "/s".data "/t".data areSyncable
          ["abcd.x".data, "abd.x".data, "abce.x".data]
          ["ab.x".data, "abc.x".data] ⟨[], []⟩).1.collisions
        "p".data).2.2 := by
  have hpred : areSyncable = fun s t =>
      jsStartsWith (s.name.filter isAlnumAscii)
        (t.name.filter isAlnumAscii) := by
    funext s t
    rw [areSyncable, replaceRuns_eq_filter, replaceRuns_eq_filter]
  rw [hpred]
  decide

/-- C1 amended: each pass on its own never claims a target file twice — the
walk's `resolved` list stays pairwise distinct by path (so no two source
files resolve the same target during the walk), and the collision pass's
`toRename` schedule stays pairwise distinct by path (so no two collision
keys pick the same rename candidate).  The cross-pass combination of the
two claims is refuted by `c1_counterexample`. -/
theorem c1_amended_per_pass_no_double_claim
    (pred : ParsedFile → ParsedFile → Bool) (pairs : List DirPair)
    (init : SyncResults) (hinit : PathDistinct init.resolved)
    (cwd sourceRoot targetRoot : JStr)
    (collisions : List (ParsedFile × List ParsedFile)) (pfx : JStr) :
    PathDistinct ((syncNames pred pairs init).1.resolved) ∧
    ((resolveCollisions cwd sourceRoot targetRoot collisions
      pfx).1).Pairwise (fun a b => a.1.fullPath ≠ b.1.fullPath) := by
  refine ⟨syncNames_preserves_distinct pred pairs init hinit, ?_⟩
  simp only [resolveCollisions]
  exact resolveFold_toRename_distinct cwd sourceRoot targetRoot _ ([], [])
    List.Pairwise.nil

/-- Witness for the amended C1 at a concrete input. -/
theorem c1_witness :
    PathDistinct
      ((syncNames (fun _ _ => true)
        [⟨"/s".data, "/t".data, ["a.x".data], ["b.x".data]⟩]
        ⟨[], []⟩).1.resolved) ∧
    ((resolveCollisions "/c".data "/s".data "/t".data
      [(parsePath "/s/a.x".data, [parsePath "/t/b.x".data])]
      "p".data).1).Pairwise (fun a b => a.1.fullPath ≠ b.1.fullPath) :=
  c1_amended_per_pass_no_double_claim (fun _ _ => true)
    [⟨"/s".data, "/t".data, ["a.x".data], ["b.x".data]⟩] ⟨[], []⟩
    List.Pairwise.nil "/c".data "/s".data "/t".data
    [(parsePath "/s/a.x".data, [parsePath "/t/b.x".data])] "p".data

end SyncName

namespace SyncName

theorem dropWhile_head_not {α : Type} {q : α → Bool} {l : List α} {x : α}
    {xs : List α} (h : l.dropWhile q = x :: xs) : q x = false := by
  induction l with
  | nil => simp at h
  | cons a l ih =>
    rw [List.dropWhile_cons] at h
    by_cases ha : q a
    · rw [if_pos ha] at h; exact ih h
    · rw [if_neg ha] at h
      cases h
      simpa using ha

/-- Formatting after parsing is the identity on well-formed paths. -/
theorem format_parse_roundtrip {p : JStr} (hwf : wellFormedPath p = true) :
    (parsePath p).fullPath = p := by
  rw [wellFormedPath] at hwf
  simp only [Bool.or_eq_true, Bool.and_eq_true, decide_eq_true_eq,
    Bool.not_eq_true'] at hwf
  rcases hwf with (rfl | rfl) | ⟨hlast, hds⟩
  · decide
  · decide
  by_cases hp0 : p = []
  · subst hp0; decide
  by_cases hsl : '/' ∈ p
  · have hsplit := List.takeWhile_append_dropWhile
      (fun x => decide (x ≠ '/')) p.reverse
    rcases hdw : p.reverse.dropWhile (fun x => decide (x ≠ '/')) with
      _ | ⟨h0, D''⟩
    · have hall := List.dropWhile_eq_nil_iff.mp hdw
      have : ('/' : Char) ∈ p.reverse := List.mem_reverse.mpr hsl
      have := hall _ this
      simp at this
    · have h0eq : h0 = '/' := by
        have := dropWhile_head_not hdw
        simpa using this
      subst h0eq
      have hp' : p = D''.reverse ++ '/' ::
          (p.reverse.takeWhile (fun x => decide (x ≠ '/'))).reverse := by
        conv_lhs => rw [← List.reverse_reverse p, ← hsplit, hdw]
        simp
      have hbne : (p.reverse.takeWhile
          (fun x => decide (x ≠ '/'))).reverse ≠ [] := by
        intro hcon
        have htw : p.reverse.takeWhile (fun x => decide (x ≠ '/')) = [] := by
          simpa using congrArg List.reverse hcon
        rw [htw, List.nil_append] at hsplit
        rw [hsplit] at hdw
        have : p.getLast? = some '/' := by
          rw [← List.head?_reverse, hdw]
          rfl
        exact hlast this
      have hbs : '/' ∉ (p.reverse.takeWhile
          (fun x => decide (x ≠ '/'))).reverse := by
        intro hcon
        have := List.mem_takeWhile_imp (List.mem_reverse.mp hcon)
        simp at this
      rcases hD : D''.reverse with _ | ⟨d, Dtl⟩
      · rw [hD, List.nil_append] at hp'
        rw [hp', parsePath_abs_no_slash hbne hbs]
        show pathFormat _ = _
        rw [pathFormat]
        simp only [ParsedFile.base]
        rw [nameExtSplit_append]
        simp
      · have hDne : D''.reverse ≠ [] := by rw [hD]; simp
        rw [hp', parsePath_dir_slash_base hDne hbne hbs]
        show pathFormat _ = _
        rw [pathFormat]
        simp only [ParsedFile.base]
        rw [nameExtSplit_append]
        have hdirne : D''.reverse ≠ [] := hDne
        by_cases hhd : D''.reverse.head? = some '/'
        · -- root is "/"; the dir cannot be exactly "/" (no double slash)
          have hDnotroot : D''.reverse ≠ ['/'] := by
            intro hcon
            rw [hcon] at hp'
            rw [hp'] at hds
            simp [hasDoubleSlash] at hds
          rw [if_pos hhd]
          rw [if_neg hdirne, if_neg hDnotroot, if_neg hdirne]
        · rw [if_neg hhd]
          rw [if_neg hdirne, if_neg (by
            intro hcon
            rw [hcon] at hdirne
            exact hdirne rfl), if_neg hdirne]
  · rw [parsePath_no_slash hp0 hsl]
    show pathFormat _ = _
    rw [pathFormat]
    simp only [ParsedFile.base]
    rw [nameExtSplit_append]
    simp

end SyncName

namespace SyncName

/-- C8: Path Descriptor totality and round trip.  Construction from a path
string never fails and loses no characters of the basename: the
`name`/`ext` decomposition always recombines to the basename (with an empty
extension when no dot qualifies), and `base = name ++ ext` for every parsed
descriptor.  For every well-formed path (no empty segment, no trailing
separator), `fullPath` of the descriptor parsed from `p` is `p` itself. -/
theorem c8_descriptor_roundtrip_and_totality :
    (∀ b : JStr, (nameExtSplit b).1 ++ (nameExtSplit b).2 = b) ∧
    (∀ p : JStr, (parsePath p).base =
      (parsePath p).name ++ (parsePath p).ext) ∧
    (∀ p : JStr, wellFormedPath p = true → (parsePath p).fullPath = p) :=
  ⟨nameExtSplit_append, fun _ => rfl,
    fun _ h => format_parse_roundtrip h⟩

/-- Witness for C8 at a concrete well-formed path. -/
theorem c8_witness :
    wellFormedPath "/a/b.txt".data = true ∧
    (parsePath "/a/b.txt".data).fullPath = "/a/b.txt".data :=
  ⟨by decide,
    c8_descriptor_roundtrip_and_totality.2.2 "/a/b.txt".data (by decide)⟩

end SyncName

namespace SyncName

theorem pathNormalize_ne_nil (p : JStr) : pathNormalize p ≠ [] := by
  simp only [pathNormalize]
  split_ifs <;> simp_all

theorem pathJoin_ne_nil (parts : List JStr) : pathJoin parts ≠ [] := by
  rw [pathJoin]
  split_ifs
  · simp
  · exact pathNormalize_ne_nil _

/-- A parsed directory entry (non-empty, separator-free name) is canonical
with empty `dir` and `root`, and its basename is the entry itself. -/
theorem parse_entry_plain {n : JStr} (hn : n ≠ []) (hs : '/' ∉ n) :
    Canonical (parsePath n) ∧ (parsePath n).dir = [] ∧
      (parsePath n).root = [] ∧ (parsePath n).base = n := by
  rw [parsePath_no_slash hn hs]
  have hb : (ParsedFile.mk [] [] (nameExtSplit n).1
      (nameExtSplit n).2).base = n := by
    simp only [ParsedFile.base]
    exact nameExtSplit_append n
  refine ⟨⟨?_, ?_, Or.inl rfl, ?_⟩, rfl, rfl, hb⟩
  · rw [hb]; exact hn
  · rw [hb]; exact hs
  · rw [hb]

/-- `withParentDirectory` on a plain (empty-`dir`, empty-`root`, canonical)
descriptor: the new `dir` is `path.join(d, "")` and nothing else changes. -/
theorem wp_of_plain {t : ParsedFile} (d : JStr) (hc : Canonical t)
    (hdir : t.dir = []) (hroot : t.root = []) :
    t.withParentDirectory d = ⟨[], pathJoin [d, []], t.name, t.ext⟩ := by
  obtain ⟨hb, hs, _, hsplit⟩ := hc
  have hform : t.fullPath = t.base := by
    rw [ParsedFile.fullPath, pathFormat, hdir, hroot]
    simp
  rw [ParsedFile.withParentDirectory, hform, hdir,
    parsePath_no_slash hb hs, hsplit]

/-- Two plain descriptors with different stems land on different full paths
when reparented under the same directory. -/
theorem wp_path_inj {t t' : ParsedFile} (d : JStr)
    (hc : Canonical t) (hdir : t.dir = []) (hroot : t.root = [])
    (hc' : Canonical t') (hdir' : t'.dir = []) (hroot' : t'.root = [])
    (hne : t.name ≠ t'.name) :
    (t.withParentDirectory d).fullPath ≠
      (t'.withParentDirectory d).fullPath := by
  rw [wp_of_plain d hc hdir hroot, wp_of_plain d hc' hdir' hroot']
  have hJ : pathJoin [d, []] ≠ [] := pathJoin_ne_nil _
  have hfp : ∀ n e : JStr,
      (ParsedFile.mk [] (pathJoin [d, []]) n e).fullPath =
        pathJoin [d, []] ++ '/' :: (n ++ e) := by
    intro n e
    rw [ParsedFile.fullPath, pathFormat]
    simp only [ParsedFile.base]
    rw [if_neg hJ, if_neg hJ, if_neg hJ]
  rw [hfp, hfp]
  intro hcon
  have hbase : t.name ++ t.ext = t'.name ++ t'.ext := by
    have h₁ := List.append_cancel_left hcon
    exact List.cons.inj h₁ |>.2
  have hbase' : t.base = t'.base := hbase
  have := hc.2.2.2
  rw [hbase', hc'.2.2.2] at this
  exact hne (congrArg Prod.fst this).symm

end SyncName

namespace SyncName

/-- The directory matcher on an aligned pair: when every source file has
exactly one predicate match, carrying the source's stem, and no match was
claimed before, every source file claims its match with a no-op rename —
no filesystem action, no collision, `resolved` extended by the claimed
candidates. -/
theorem syncDir_aligned_fold (sourceDir targetDir : JStr)
    (pred : ParsedFile → ParsedFile → Bool) (targetFiles : List ParsedFile)
    (htf : ∀ t ∈ targetFiles, Canonical t ∧ t.dir = [] ∧ t.root = []) :
    ∀ (l : List ParsedFile) (st : SyncResults × List FsAction),
    (∀ s ∈ l, ∃ t ∈ targetFiles,
      targetFiles.filter (fun c => pred s c) = [t] ∧ t.name = s.name) →
    l.Pairwise (fun a b => a.name ≠ b.name) →
    (∀ s ∈ l, ∀ t ∈ targetFiles,
      targetFiles.filter (fun c => pred s c) = [t] →
      st.1.resolved.any
        (fun f => f.equal (t.withParentDirectory targetDir)) = false) →
    ∃ R', l.foldl (syncDirStep sourceDir targetDir pred targetFiles) st =
        (⟨st.1.resolved ++ R', st.1.collisions⟩, st.2) ∧
      ∀ x ∈ R', ∃ t ∈ targetFiles, x = t.withParentDirectory targetDir := by
  intro l
  induction l with
  | nil => exact fun st _ _ _ => ⟨[], by simp, by simp⟩
  | cons s l ih =>
    intro st ha hinj hfr
    obtain ⟨t, htmem, hfilt, hname⟩ := ha s (List.mem_cons_self _ _)
    have hany := hfr s (List.mem_cons_self _ _) t htmem hfilt
    have hcands : syncCandidates targetDir pred targetFiles st.1.resolved
        s = [t.withParentDirectory targetDir] := by
      rw [syncCandidates, hfilt]
      simp [hany]
    have hwpname : (t.withParentDirectory targetDir).name = t.name :=
      (withParentDirectory_fields _ (htf t htmem).1).1
    have hract : renameFileActs (t.withParentDirectory targetDir) s.name =
        [] := by
      rw [renameFileActs, if_neg]
      exact fun hcon => hcon (hwpname.trans hname)
    have hstep : syncDirStep sourceDir targetDir pred targetFiles st s =
        (⟨st.1.resolved ++ [t.withParentDirectory targetDir],
          st.1.collisions⟩, st.2) := by
      simp only [syncDirStep, hcands, hract, List.append_nil]
    rw [List.foldl_cons, hstep]
    have hpair := List.pairwise_cons.mp hinj
    obtain ⟨R'', heq, hsub⟩ := ih
      (⟨st.1.resolved ++ [t.withParentDirectory targetDir],
        st.1.collisions⟩, st.2)
      (fun s' hs' => ha s' (List.mem_cons_of_mem _ hs'))
      hpair.2
      (by
        intro s' hs' t' ht'mem hfilt'
        rw [List.any_append]
        have h₁ := hfr s' (List.mem_cons_of_mem _ hs') t' ht'mem hfilt'
        have hname' : t'.name = s'.name := by
          obtain ⟨t'', _, hfilt'', hname''⟩ :=
            ha s' (List.mem_cons_of_mem _ hs')
          have : t' = t'' := by
            have := hfilt''.symm.trans hfilt'
            simpa using this.symm
          rw [this]; exact hname''
        have h₂ : ((t.withParentDirectory targetDir).equal
            (t'.withParentDirectory targetDir)) = false := by
          simp only [ParsedFile.equal, decide_eq_false_iff_not]
          apply wp_path_inj targetDir (htf t htmem).1 (htf t htmem).2.1
            (htf t htmem).2.2 (htf t' ht'mem).1 (htf t' ht'mem).2.1
            (htf t' ht'mem).2.2
          rw [hname, hname']
          exact hpair.1 s' hs'
        simp [h₁, h₂])
    refine ⟨t.withParentDirectory targetDir :: R'', ?_, ?_⟩
    · rw [heq]; simp
    · intro x hx
      rcases List.mem_cons.mp hx with rfl | hx
      · exact ⟨t, htmem, rfl⟩
      · exact hsub x hx

end SyncName

namespace SyncName

theorem syncDir_aligned (sourceDir targetDir : JStr)
    (pred : ParsedFile → ParsedFile → Bool)
    (sourceNames targetNames : List JStr) (init : SyncResults)
    (htn : ∀ n ∈ targetNames, n ≠ [] ∧ '/' ∉ n)
    (ha : ∀ s ∈ sourceNames.map parsePath,
      ∃ t ∈ targetNames.map parsePath,
        (targetNames.map parsePath).filter (fun c => pred s c) = [t] ∧
        t.name = s.name)
    (hinj : (sourceNames.map parsePath).Pairwise
      (fun a b => a.name ≠ b.name))
    (hfr : ∀ s ∈ sourceNames.map parsePath,
      ∀ t ∈ targetNames.map parsePath,
      (targetNames.map parsePath).filter (fun c => pred s c) = [t] →
      init.resolved.any
        (fun f => f.equal (t.withParentDirectory targetDir)) = false) :
    ∃ R', syncDir sourceDir targetDir pred sourceNames targetNames init =
        (⟨init.resolved ++ R', init.collisions⟩, []) ∧
      ∀ x ∈ R', ∃ t ∈ targetNames.map parsePath,
        x = t.withParentDirectory targetDir := by
  have htf : ∀ t ∈ targetNames.map parsePath,
      Canonical t ∧ t.dir = [] ∧ t.root = [] := by
    intro t ht
    obtain ⟨n, hn, rfl⟩ := List.mem_map.mp ht
    obtain ⟨h1, h2⟩ := htn n hn
    have h := parse_entry_plain h1 h2
    exact ⟨h.1, h.2.1, h.2.2.1⟩
  exact syncDir_aligned_fold sourceDir targetDir pred _ htf _ (init, [])
    ha hinj hfr

/-- The reparented target candidates of one pair, as listed in the walk. -/
def pairCands (pr : DirPair) : List ParsedFile :=
  pr.targetNames.map (fun n => (parsePath n).withParentDirectory pr.targetDir)

theorem syncNames_aligned_fold (pred : ParsedFile → ParsedFile → Bool) :
    ∀ (pairs : List DirPair) (st : SyncResults × List FsAction),
    st.1.collisions = [] →
    (∀ pr ∈ pairs, ∀ s ∈ pr.sourceNames.map parsePath,
      ∃ t ∈ pr.targetNames.map parsePath,
        (pr.targetNames.map parsePath).filter (fun c => pred s c) = [t] ∧
        t.name = s.name) →
    (∀ pr ∈ pairs, ∀ n ∈ pr.targetNames, n ≠ [] ∧ '/' ∉ n) →
    (∀ pr ∈ pairs, (pr.sourceNames.map parsePath).Pairwise
      (fun a b => a.name ≠ b.name)) →
    (∀ x ∈ st.1.resolved, ∀ b ∈ (pairs.map pairCands).flatten,
      x.fullPath ≠ b.fullPath) →
    PathDistinct ((pairs.map pairCands).flatten) →
    ((pairs.foldl
      (fun st pr =>
        let r := syncDir pr.sourceDir pr.targetDir pred
          pr.sourceNames pr.targetNames st.1
        (r.1, st.2 ++ r.2)) st).1.collisions = [] ∧
    (pairs.foldl
      (fun st pr =>
        let r := syncDir pr.sourceDir pr.targetDir pred
          pr.sourceNames pr.targetNames st.1
        (r.1, st.2 ++ r.2)) st).2 = st.2) := by
  intro pairs
  induction pairs with
  | nil => exact fun st hcol _ _ _ _ _ => ⟨hcol, rfl⟩
  | cons pr prs ih =>
    intro st hcol ha htn hinj hsafe hglobal
    rw [List.map_cons, List.flatten_cons] at hglobal hsafe
    rw [PathDistinct, List.pairwise_append] at hglobal
    obtain ⟨hcur, hrest, hcross⟩ := hglobal
    obtain ⟨R', heq, hsub⟩ := syncDir_aligned pr.sourceDir pr.targetDir
      pred pr.sourceNames pr.targetNames st.1
      (htn pr (List.mem_cons_self _ _))
      (ha pr (List.mem_cons_self _ _))
      (hinj pr (List.mem_cons_self _ _))
      (by
        intro s hs t ht hfilt
        rw [List.any_eq_false]
        intro x hx
        obtain ⟨n, hn, rfl⟩ := List.mem_map.mp ht
        have hc : (parsePath n).withParentDirectory pr.targetDir ∈
            pairCands pr := List.mem_map_of_mem _ hn
        have := hsafe x hx _ (List.mem_append_left _ hc)
        simpa [ParsedFile.equal] using this)
    rw [List.foldl_cons]
    simp only [heq, List.append_nil]
    apply ih (⟨st.1.resolved ++ R', st.1.collisions⟩, st.2) hcol
      (fun p hp => ha p (List.mem_cons_of_mem _ hp))
      (fun p hp => htn p (List.mem_cons_of_mem _ hp))
      (fun p hp => hinj p (List.mem_cons_of_mem _ hp))
      (by
        intro x hx b hb
        rcases List.mem_append.mp hx with hx | hx
        · exact hsafe x hx b (List.mem_append_right _ hb)
        · obtain ⟨t, ht, rfl⟩ := hsub x hx
          obtain ⟨n, hn, rfl⟩ := List.mem_map.mp ht
          exact hcross _ (List.mem_map_of_mem _ hn) b hb)
      hrest

end SyncName

namespace SyncName

/-- C7: idempotence of an unambiguous (name-aligned) sync.  If for every
directory pair each source file has exactly one predicate match among the
target files and that match carries the source file's own stem, with
pairwise-distinct source stems per pair and globally distinct candidate
paths, then the whole walk performs zero filesystem renames, zero copies
(an empty action trace — matched renames are no-ops because the names
already agree) and returns an empty collision map. -/
theorem c7_idempotent_aligned_sync (pred : ParsedFile → ParsedFile → Bool)
    (pairs : List DirPair)
    (halign : ∀ pr ∈ pairs, ∀ s ∈ pr.sourceNames.map parsePath,
      ∃ t ∈ pr.targetNames.map parsePath,
        (pr.targetNames.map parsePath).filter (fun c => pred s c) = [t] ∧
        t.name = s.name)
    (htn : ∀ pr ∈ pairs, ∀ n ∈ pr.targetNames, n ≠ [] ∧ '/' ∉ n)
    (hinj : ∀ pr ∈ pairs, (pr.sourceNames.map parsePath).Pairwise
      (fun a b => a.name ≠ b.name))
    (hglobal : PathDistinct ((pairs.map pairCands).flatten)) :
    (syncNames pred pairs ⟨[], []⟩).2 = [] ∧
    (syncNames pred pairs ⟨[], []⟩).1.collisions = [] := by
  have h := syncNames_aligned_fold pred pairs (⟨[], []⟩, []) rfl halign htn
    hinj (by intro x hx; simp at hx) hglobal
  exact ⟨h.2, h.1⟩

end SyncName

namespace SyncName

/-- Witness for C7 at a concrete aligned pair: identical listings, exact
stem-equality predicate — no action, no collision. -/
theorem c7_witness :
    (syncNames (fun s t => decide (s.name = t.name))
      [⟨"/s".data, "/t".data, ["a.x".data, "b.x".data],
        ["a.x".data, "b.x".data]⟩] ⟨[], []⟩).2 = [] ∧
    (syncNames (fun s t => decide (s.name = t.name))
      [⟨"/s".data, "/t".data, ["a.x".data, "b.x".data],
        ["a.x".data, "b.x".data]⟩] ⟨[], []⟩).1.collisions = [] :=
  c7_idempotent_aligned_sync (fun s t => decide (s.name = t.name))
    [⟨"/s".data, "/t".data, ["a.x".data, "b.x".data],
      ["a.x".data, "b.x".data]⟩]
    (by decide) (by decide) (by decide) (by decide)

end SyncName

/-! ## Frame: writes land under the target side -/

namespace SyncName

/-- A plain path segment: non-empty, separator-free, and not one of the
special `"."` / `".."` segments reduced by normalisation. -/
def PlainSeg (s : JStr) : Prop :=
  s ≠ [] ∧ '/' ∉ s ∧ s ≠ ['.'] ∧ s ≠ ['.', '.']

/-- A slash-normalised directory path: a non-empty sequence of plain
segments, optionally absolute. -/
def CleanDir (d : JStr) : Prop :=
  ∃ (abs : Bool) (segs : List JStr), segs ≠ [] ∧ (∀ s ∈ segs, PlainSeg s) ∧
    d = (if abs then '/' :: joinSegs segs else joinSegs segs)

/-- `p` lies strictly below the directory `root`. -/
def underRoot (root p : JStr) : Prop := ∃ r, p = root ++ '/' :: r

/-- `d` is the directory `root` itself or one of its subdirectories. -/
def underRootDir (root d : JStr) : Prop := d = root ∨ underRoot root d

/-- The write targets of an action stay inside the directory `root`:
both endpoints of a rename, and the destination of a copy. -/
def ActionInTarget (root : JStr) : FsAction → Prop
  | .rename fromPath toPath =>
    underRoot root fromPath ∧ underRoot root toPath
  | .copy _ toPath => underRoot root toPath

theorem joinSegs_cons (s : JStr) (rest : List JStr) :
    joinSegs (s :: rest) =
      s ++ (if rest = [] then [] else '/' :: joinSegs rest) := by
  cases rest with
  | nil => simp [joinSegs]
  | cons t ts => simp [joinSegs, List.intersperse]

theorem joinSegs_ne_nil {segs : List JStr} (h : segs ≠ [])
    (hp : ∀ s ∈ segs, PlainSeg s) : joinSegs segs ≠ [] := by
  cases segs with
  | nil => exact absurd rfl h
  | cons s rest =>
    rw [joinSegs_cons]
    have := (hp s (List.mem_cons_self _ _)).1
    intro hcon
    exact this (List.append_eq_nil.mp hcon).1

theorem joinSegs_append {A B : List JStr} (hA : A ≠ []) (hB : B ≠ []) :
    joinSegs (A ++ B) = joinSegs A ++ '/' :: joinSegs B := by
  induction A with
  | nil => exact absurd rfl hA
  | cons s rest ih =>
    cases hrest : rest with
    | nil =>
      subst hrest
      rw [List.cons_append, List.nil_append, joinSegs_cons, joinSegs_cons,
        if_neg hB, if_pos rfl]
      simp
    | cons t ts =>
      rw [List.cons_append, joinSegs_cons, joinSegs_cons,
        if_neg (by simp [hrest]), if_neg (by simp [hrest]),
        ← hrest, ih (by simp [hrest])]
      simp

theorem joinSegs_eq_intercalate (segs : List JStr) :
    joinSegs segs = List.intercalate ['/'] segs := rfl

theorem splitSegs_joinSegs {segs : List JStr} (h : segs ≠ [])
    (hne : joinSegs segs ≠ []) (hsl : ∀ s ∈ segs, '/' ∉ s) :
    splitSegs (joinSegs segs) = segs := by
  rw [splitSegs, if_neg hne, joinSegs_eq_intercalate]
  exact List.splitOn_intercalate segs '/' hsl h

theorem getLast?_mem {l : JStr} {c : Char} (h : l.getLast? = some c) :
    c ∈ l := by
  obtain ⟨hne, rfl⟩ := List.mem_getLast?_eq_getLast h
  exact List.getLast_mem hne

theorem getLast?_joinSegs {segs : List JStr} (h : segs ≠ [])
    (hp : ∀ s ∈ segs, PlainSeg s) :
    (joinSegs segs).getLast? ≠ some '/' := by
  induction segs with
  | nil => exact absurd rfl h
  | cons s rest ih =>
    rw [joinSegs_cons]
    cases hrest : rest with
    | nil =>
      rw [if_pos rfl, List.append_nil]
      intro hcon
      exact (hp s (List.mem_cons_self _ _)).2.1 (getLast?_mem hcon)
    | cons t ts =>
      rw [if_neg (by simp [hrest]), ← hrest]
      have hrne : rest ≠ [] := by simp [hrest]
      have hpr : ∀ x ∈ rest, PlainSeg x :=
        fun x hx => hp x (List.mem_cons_of_mem _ hx)
      have hjoin := joinSegs_ne_nil hrne hpr
      rw [List.getLast?_append_of_ne_nil _ (by simp)]
      rw [show ('/' :: joinSegs rest : JStr) = ['/'] ++ joinSegs rest
        from rfl]
      rw [List.getLast?_append_of_ne_nil _ hjoin]
      exact ih hrne hpr

end SyncName

namespace SyncName

/-- A plain relative path: a non-empty join of plain segments. -/
def PlainRel (r : JStr) : Prop :=
  ∃ segs, segs ≠ [] ∧ (∀ s ∈ segs, PlainSeg s) ∧ r = joinSegs segs

theorem plainRel_ne_nil {r : JStr} (hr : PlainRel r) : r ≠ [] := by
  obtain ⟨segs, hne, hp, rfl⟩ := hr
  exact joinSegs_ne_nil hne hp

theorem cleanDir_ne_nil {d : JStr} (hd : CleanDir d) : d ≠ [] := by
  obtain ⟨abs, segs, hne, hp, rfl⟩ := hd
  cases abs
  · rw [if_neg (by simp)]
    exact joinSegs_ne_nil hne hp
  · rw [if_pos (by simp)]
    simp

theorem head?_joinSegs {segs : List JStr} (h : segs ≠ [])
    (hp : ∀ s ∈ segs, PlainSeg s) : (joinSegs segs).head? ≠ some '/' := by
  cases segs with
  | nil => exact absurd rfl h
  | cons s rest =>
    obtain ⟨c, cs, rfl⟩ : ∃ c cs, s = c :: cs := by
      rcases s with _ | ⟨c, cs⟩
      · exact absurd rfl (hp _ (List.mem_cons_self _ _)).1
      · exact ⟨c, cs, rfl⟩
    rw [joinSegs_cons]
    intro hcon
    have : c = '/' := by simpa using hcon
    exact (hp _ (List.mem_cons_self _ _)).2.1
      (this ▸ List.mem_cons_self _ _)

theorem cleanDir_ne_root {d : JStr} (hd : CleanDir d) : d ≠ ['/'] := by
  obtain ⟨abs, segs, hne, hp, rfl⟩ := hd
  cases abs
  · rw [if_neg (by simp)]
    intro hcon
    exact head?_joinSegs hne hp (by rw [hcon]; rfl)
  · rw [if_pos (by simp)]
    intro hcon
    exact joinSegs_ne_nil hne hp (by simpa using hcon)

theorem plain_normStep (allow : Bool) (acc : List JStr) {s : JStr}
    (hs : PlainSeg s) : normStep allow acc s = acc ++ [s] := by
  obtain ⟨h1, _, h3, h4⟩ := hs
  rw [normStep, if_neg (by simp [h1, h3]), if_neg h4]

theorem plain_normSegs (allow : Bool) {segs : List JStr}
    (hp : ∀ s ∈ segs, PlainSeg s) :
    ∀ acc, segs.foldl (normStep allow) acc = acc ++ segs := by
  induction segs with
  | nil => simp
  | cons s rest ih =>
    intro acc
    rw [List.foldl_cons, plain_normStep allow acc
      (hp s (List.mem_cons_self _ _)),
      ih (fun x hx => hp x (List.mem_cons_of_mem _ hx))]
    simp

theorem normStep_nil_seg (allow : Bool) (acc : List JStr) :
    normStep allow acc [] = acc := by
  rw [normStep, if_pos (by simp)]

theorem cleanDir_normalize {d : JStr} (hd : CleanDir d) :
    pathNormalize d = d := by
  obtain ⟨abs, segs, hne, hp, rfl⟩ := hd
  have hjne := joinSegs_ne_nil hne hp
  have hsl : ∀ s ∈ segs, '/' ∉ s := fun s hs => (hp s hs).2.1
  cases abs
  · rw [if_neg (by simp)]
    rw [pathNormalize, if_neg hjne]
    have hhead : ¬ (joinSegs segs).head? = some '/' := head?_joinSegs hne hp
    have hlast : ¬ (joinSegs segs).getLast? = some '/' :=
      getLast?_joinSegs hne hp
    rw [splitSegs_joinSegs hne hjne hsl]
    simp only [normSegs]
    rw [plain_normSegs _ hp, List.nil_append]
    rw [if_neg (by simp [hjne]), if_neg hlast, if_neg hhead]
  · rw [if_pos (by simp)]
    have hpne : ('/' :: joinSegs segs : JStr) ≠ [] := by simp
    rw [pathNormalize, if_neg hpne]
    have habs : ('/' :: joinSegs segs : JStr).head? = some '/' := rfl
    have hlast : ¬ ('/' :: joinSegs segs : JStr).getLast? = some '/' := by
      rw [show ('/' :: joinSegs segs : JStr) = ['/'] ++ joinSegs segs
        from rfl, List.getLast?_append_of_ne_nil _ hjne]
      exact getLast?_joinSegs hne hp
    have hsplit : splitSegs ('/' :: joinSegs segs) = [] :: segs := by
      have hj : ('/' :: joinSegs segs : JStr) = joinSegs ([] :: segs) := by
        rw [joinSegs_cons, if_neg hne, List.nil_append]
      rw [hj]
      exact splitSegs_joinSegs (by simp) (by rw [← hj]; simp)
        (by
          intro s hs
          rcases List.mem_cons.mp hs with rfl | hs
          · simp
          · exact hsl s hs)
    rw [hsplit, habs]
    simp only [normSegs]
    rw [List.foldl_cons, normStep_nil_seg,
      plain_normSegs _ hp, List.nil_append]
    rw [if_neg hjne]
    simp only [if_true]
    rw [if_neg hlast]

theorem cleanDir_join_nil {d : JStr} (hd : CleanDir d) :
    pathJoin [d, []] = d := by
  have hne := cleanDir_ne_nil hd
  rw [pathJoin]
  have hfilt : ([d, []] : List JStr).filter (· ≠ []) = [d] := by
    simp [List.filter, hne]
  rw [hfilt, if_neg (by simp [hne])]
  have hj : joinSegs [d] = d := by rw [joinSegs_cons, if_pos rfl]; simp
  rw [hj, cleanDir_normalize hd]

theorem cleanDir_append {d r : JStr} (hd : CleanDir d) (hr : PlainRel r) :
    CleanDir (d ++ '/' :: r) := by
  obtain ⟨abs, dsegs, hdne, hdp, rfl⟩ := hd
  obtain ⟨rsegs, hrne, hrp, rfl⟩ := hr
  refine ⟨abs, dsegs ++ rsegs, by simp [hdne], ?_, ?_⟩
  · intro s hs
    rcases List.mem_append.mp hs with hs | hs
    · exact hdp s hs
    · exact hrp s hs
  · rw [joinSegs_append hdne hrne]
    cases abs
    · rw [if_neg (by simp), if_neg (by simp)]
    · rw [if_pos (by simp), if_pos (by simp)]
      simp

theorem cleanDir_join_plain {d r : JStr} (hd : CleanDir d)
    (hr : PlainRel r) : pathJoin [d, r] = d ++ '/' :: r := by
  have hdne := cleanDir_ne_nil hd
  have hrne := plainRel_ne_nil hr
  rw [pathJoin]
  have hfilt : ([d, r] : List JStr).filter (· ≠ []) = [d, r] := by
    simp [List.filter, hdne, hrne]
  rw [hfilt, if_neg (by simp [hdne])]
  have hj : joinSegs [d, r] = d ++ '/' :: r := by
    rw [joinSegs_cons, if_neg (by simp), joinSegs_cons, if_pos rfl]
    simp
  rw [hj, cleanDir_normalize (cleanDir_append hd hr)]

end SyncName

namespace SyncName

theorem fullPath_of_dir {c : ParsedFile} {d : JStr} (hdir : c.dir = d)
    (hd : d ≠ []) (hroot : c.root = [] ∨ c.root = ['/'])
    (hd2 : d ≠ ['/']) : c.fullPath = d ++ '/' :: c.base := by
  rw [ParsedFile.fullPath, pathFormat, hdir, if_neg hd, if_neg hd, if_neg]
  rcases hroot with hr | hr <;> rw [hr]
  · exact hd
  · exact hd2

theorem withName_fullPath {c : ParsedFile} {d : JStr} (nn : JStr)
    (hcan : Canonical c) (hdir : c.dir = d) (hd : d ≠ [])
    (hd2 : d ≠ ['/']) :
    (c.withName nn).fullPath =
      d ++ '/' :: (nn ++ (nameExtSplit c.base).2) := by
  have hfp := fullPath_of_dir hdir hd hcan.2.2.1 hd2
  rw [ParsedFile.withName, hfp, parsePath_dir_slash_base hd hcan.1 hcan.2.1]
  exact fullPath_of_dir rfl hd
    (by by_cases hh : d.head? = some '/'
        · rw [if_pos hh]; right; rfl
        · rw [if_neg hh]; left; rfl) hd2

theorem underRoot_of_dir {root d p b : JStr} (hu : underRootDir root d)
    (hp : p = d ++ '/' :: b) : underRoot root p := by
  rcases hu with rfl | ⟨r, rfl⟩
  · exact ⟨b, hp⟩
  · exact ⟨r ++ '/' :: b, by rw [hp]; simp⟩

theorem underRootDir_ne {root d : JStr} (hc : CleanDir root)
    (hu : underRootDir root d) : d ≠ [] ∧ d ≠ ['/'] := by
  rcases hu with rfl | ⟨r, rfl⟩
  · exact ⟨cleanDir_ne_nil hc, cleanDir_ne_root hc⟩
  · constructor
    · simp
    · intro hcon
      have hlen := congrArg List.length hcon
      simp at hlen
      have hr0 : root.length = 0 := by omega
      exact cleanDir_ne_nil hc (List.length_eq_zero.mp hr0)

theorem renameActs_in_target {root : JStr} {c : ParsedFile}
    (hclean : CleanDir root) (hcan : Canonical c)
    (hu : underRootDir root c.dir) (nn : JStr) :
    ∀ a ∈ renameFileActs c nn, ActionInTarget root a := by
  obtain ⟨hd1, hd2⟩ := underRootDir_ne hclean hu
  intro a ha
  rw [renameFileActs] at ha
  by_cases hne : c.name ≠ nn
  · rw [if_pos hne, List.mem_singleton] at ha
    subst ha
    exact ⟨underRoot_of_dir hu (fullPath_of_dir rfl hd1 hcan.2.2.1 hd2),
      underRoot_of_dir hu (withName_fullPath nn hcan rfl hd1 hd2)⟩
  · rw [if_neg hne] at ha
    simp at ha

end SyncName

namespace SyncName

theorem syncDirStep_frame {sourceDir targetDir : JStr}
    {pred : ParsedFile → ParsedFile → Bool}
    {targetFiles : List ParsedFile} {st : SyncResults × List FsAction}
    {sourceFile : ParsedFile}
    (hclean : CleanDir targetDir)
    (htf : ∀ t ∈ targetFiles, Canonical t ∧ t.dir = [] ∧ t.root = [])
    (hsf : Canonical sourceFile ∧ sourceFile.dir = [] ∧
      sourceFile.root = [])
    (hacc : ∀ a ∈ st.2, ActionInTarget targetDir a) :
    ∀ a ∈ (syncDirStep sourceDir targetDir pred targetFiles st
      sourceFile).2, ActionInTarget targetDir a := by
  have hwp : ∀ u : ParsedFile, Canonical u → u.dir = [] → u.root = [] →
      u.withParentDirectory targetDir =
        ⟨[], targetDir, u.name, u.ext⟩ ∧
      Canonical (ParsedFile.mk [] targetDir u.name u.ext) := by
    intro u hc hd hr
    constructor
    · rw [wp_of_plain targetDir hc hd hr, cleanDir_join_nil hclean]
    · have := canonical_set_dir hc targetDir
      rw [hr] at this
      exact this
  rcases hc : syncCandidates targetDir pred targetFiles st.1.resolved
      sourceFile with _ | ⟨c, _ | ⟨c₂, cs⟩⟩
  · simp only [syncDirStep, hc]
    intro a ha
    rcases List.mem_append.mp ha with ha | ha
    · exact hacc a ha
    · rw [copyFileActs, List.mem_singleton] at ha
      subst ha
      obtain ⟨heq, hcan⟩ := hwp sourceFile hsf.1 hsf.2.1 hsf.2.2
      show underRoot targetDir
        (sourceFile.withParentDirectory targetDir).fullPath
      rw [heq]
      exact underRoot_of_dir (Or.inl rfl)
        (fullPath_of_dir rfl (cleanDir_ne_nil hclean) (Or.inl rfl)
          (cleanDir_ne_root hclean))
  · simp only [syncDirStep, hc]
    intro a ha
    rcases List.mem_append.mp ha with ha | ha
    · exact hacc a ha
    · have hcmem : c ∈ syncCandidates targetDir pred targetFiles
          st.1.resolved sourceFile := by
        rw [hc]; exact List.mem_cons_self _ _
      obtain ⟨t, htmem, rfl⟩ :
          ∃ t, t ∈ targetFiles ∧ c = t.withParentDirectory targetDir := by
        have := (List.mem_filter.mp hcmem).1
        obtain ⟨t, ht, rfl⟩ := List.mem_map.mp this
        exact ⟨t, (List.mem_filter.mp ht).1, rfl⟩
      obtain ⟨hct, hdt, hrt⟩ := htf t htmem
      obtain ⟨heq, hcan⟩ := hwp t hct hdt hrt
      rw [heq] at ha
      exact renameActs_in_target hclean hcan (Or.inl rfl) sourceFile.name
        a ha
  · simp only [syncDirStep, hc]
    exact hacc

theorem syncDir_frame (sourceDir targetDir : JStr)
    (pred : ParsedFile → ParsedFile → Bool)
    (sourceNames targetNames : List JStr) (init : SyncResults)
    (hclean : CleanDir targetDir)
    (htn : ∀ n ∈ targetNames, n ≠ [] ∧ '/' ∉ n)
    (hsn : ∀ n ∈ sourceNames, n ≠ [] ∧ '/' ∉ n) :
    ∀ a ∈ (syncDir sourceDir targetDir pred sourceNames targetNames
      init).2, ActionInTarget targetDir a := by
  have htf : ∀ t ∈ targetNames.map parsePath,
      Canonical t ∧ t.dir = [] ∧ t.root = [] := by
    intro t ht
    obtain ⟨n, hn, rfl⟩ := List.mem_map.mp ht
    have h := parse_entry_plain (htn n hn).1 (htn n hn).2
    exact ⟨h.1, h.2.1, h.2.2.1⟩
  have hsf : ∀ s ∈ sourceNames.map parsePath,
      Canonical s ∧ s.dir = [] ∧ s.root = [] := by
    intro s hs
    obtain ⟨n, hn, rfl⟩ := List.mem_map.mp hs
    have h := parse_entry_plain (hsn n hn).1 (hsn n hn).2
    exact ⟨h.1, h.2.1, h.2.2.1⟩
  have hfold : ∀ (l : List ParsedFile),
      (∀ s ∈ l, Canonical s ∧ s.dir = [] ∧ s.root = []) →
      ∀ (st : SyncResults × List FsAction),
      (∀ a ∈ st.2, ActionInTarget targetDir a) →
      ∀ a ∈ (l.foldl
        (syncDirStep sourceDir targetDir pred
          (targetNames.map parsePath)) st).2,
        ActionInTarget targetDir a := by
    intro l
    induction l with
    | nil => exact fun _ st hacc => hacc
    | cons s l ih =>
      intro hl st hacc
      rw [List.foldl_cons]
      exact ih (fun x hx => hl x (List.mem_cons_of_mem _ hx)) _
        (syncDirStep_frame hclean htf (hl s (List.mem_cons_self _ _)) hacc)
  exact hfold _ hsf (init, []) (fun a ha => by simp at ha)

end SyncName

namespace SyncName

instance : DecidablePred PlainSeg := fun s => by
  rw [PlainSeg]; infer_instance

theorem resolveCollisions_frame (cwd sourceRoot targetRoot : JStr)
    (collisions : List (ParsedFile × List ParsedFile)) (pfx : JStr)
    (hclean : CleanDir targetRoot)
    (hcands : ∀ kcs ∈ collisions, ∀ c ∈ kcs.2,
      Canonical c ∧ underRootDir targetRoot c.dir)
    (hkeys : ∀ kcs ∈ collisions, Canonical kcs.1 ∧
      (pathRelative cwd sourceRoot kcs.1.dir = [] ∨
        PlainRel (pathRelative cwd sourceRoot kcs.1.dir))) :
    ∀ a ∈ (resolveCollisions cwd sourceRoot targetRoot collisions
      pfx).2.2, ActionInTarget targetRoot a := by
  intro a ha
  simp only [resolveCollisions] at ha
  rcases List.mem_append.mp ha with ha | ha
  · rw [List.mem_flatten] at ha
    obtain ⟨batch, hbatch, hab⟩ := ha
    obtain ⟨e, he, rfl⟩ := List.mem_map.mp hbatch
    rcases (resolveFold_provenance cwd sourceRoot targetRoot
        (sortCollisions collisions) ([], [])).1 e he with h | ⟨kcs, hk, h⟩
    · simp at h
    · have hk' := (List.perm_insertionSort keyLenGe collisions).mem_iff.mp
        hk
      obtain ⟨hcanc, hu⟩ := hcands kcs hk' e.1 h.2
      exact renameActs_in_target hclean hcanc hu _ a hab
  · rw [List.mem_flatten] at ha
    obtain ⟨batch, hbatch, hab⟩ := ha
    obtain ⟨e, he, rfl⟩ := List.mem_map.mp hbatch
    rcases (resolveFold_provenance cwd sourceRoot targetRoot
        (sortCollisions collisions) ([], [])).2 e he with h | ⟨kcs, hk, h⟩
    · simp at h
    · have hk' := (List.perm_insertionSort keyLenGe collisions).mem_iff.mp
        hk
      obtain ⟨hkc, hrel⟩ := hkeys kcs hk'
      obtain ⟨hkey, hdest⟩ := h
      have hg := relativeTo_fields cwd sourceRoot hkc
      have he2 := withParentDirectory_fields targetRoot hg.2.2.2
      have hdir2 : ((kcs.1.relativeTo cwd
          sourceRoot).withParentDirectory targetRoot).dir =
          pathJoin [targetRoot, pathRelative cwd sourceRoot kcs.1.dir] := by
        rw [he2.2.2.1, hg.2.2.1]
      have hu : underRootDir targetRoot
          ((kcs.1.relativeTo cwd
            sourceRoot).withParentDirectory targetRoot).dir := by
        rw [hdir2]
        rcases hrel with hr | hr
        · rw [hr, cleanDir_join_nil hclean]
          exact Or.inl rfl
        · rw [cleanDir_join_plain hclean hr]
          exact Or.inr ⟨_, rfl⟩
      rw [copyFileActs, List.mem_singleton] at hab
      subst hab
      show underRoot targetRoot _
      obtain ⟨hd1, hd2⟩ := underRootDir_ne hclean hu
      rw [hdest]
      rw [withName_fullPath _ he2.2.2.2 rfl (by rw [← hdest]; exact
        hdest ▸ hd1) (hdest ▸ hd2)]
      exact underRoot_of_dir hu rfl

end SyncName

namespace SyncName

/-- C9: the source tree is never written.  Every filesystem rename emitted
by the directory matcher targets paths directly inside the (clean) target
directory, and every copy it emits writes its destination inside the target
directory; every rename emitted by the collision resolver stays inside the
target root (given that collision candidates live under the target root, as
the walk produces them), and every fallback copy writes its destination
under the target root.  Source paths appear only as copy sources, never as
write targets. -/
theorem c9_writes_stay_in_target
    (sourceDir targetDir cwd sourceRoot targetRoot : JStr)
    (pred : ParsedFile → ParsedFile → Bool)
    (sourceNames targetNames : List JStr) (init : SyncResults)
    (collisions : List (ParsedFile × List ParsedFile)) (pfx : JStr)
    (hcleanD : CleanDir targetDir)
    (htn : ∀ n ∈ targetNames, n ≠ [] ∧ '/' ∉ n)
    (hsn : ∀ n ∈ sourceNames, n ≠ [] ∧ '/' ∉ n)
    (hcleanR : CleanDir targetRoot)
    (hcands : ∀ kcs ∈ collisions, ∀ c ∈ kcs.2,
      Canonical c ∧ underRootDir targetRoot c.dir)
    (hkeys : ∀ kcs ∈ collisions, Canonical kcs.1 ∧
      (pathRelative cwd sourceRoot kcs.1.dir = [] ∨
        PlainRel (pathRelative cwd sourceRoot kcs.1.dir))) :
    (∀ a ∈ (syncDir sourceDir targetDir pred sourceNames targetNames
      init).2, ActionInTarget targetDir a) ∧
    (∀ a ∈ (resolveCollisions cwd sourceRoot targetRoot collisions
      pfx).2.2, ActionInTarget targetRoot a) :=
  ⟨syncDir_frame sourceDir targetDir pred sourceNames targetNames init
      hcleanD htn hsn,
    resolveCollisions_frame cwd sourceRoot targetRoot collisions pfx
      hcleanR hcands hkeys⟩

/-- Witness for C9: with source listing `["new.x"]` and an empty target
listing, the matcher emits exactly the copy of `"/s/new.x"` to
`"/t/new.x"`, whose destination is inside the target directory `"/t"`. -/
theorem c9_witness :
    ActionInTarget "/t".data
      (FsAction.copy "/s/new.x".data "/t/new.x".data) :=
  (c9_writes_stay_in_target "/s".data "/t".data "/c".data "/s".data
    "/t".data (fun _ _ => true) ["new.x".data] [] ⟨[], []⟩ [] "p".data
    ⟨true, [['t']], by decide, by decide, by decide⟩
    (by decide) (by decide)
    ⟨true, [['t']], by decide, by decide, by decide⟩
    (fun kcs h => absurd h (List.not_mem_nil _))
    (fun kcs h => absurd h (List.not_mem_nil _))).1
    (FsAction.copy "/s/new.x".data "/t/new.x".data) (by decide)

end SyncName
